import Mathlib

/-!
# sechprob.c — second-hand proximity simulation

A shallow embedding of `src/sechprob.c`.  The program precomputes the eleven
minute/hour-hand rendezvous times (`initMHR`), then sweeps a fixed time frame
over twelve hours (`main`), asking `hasMHR` whether a rendezvous falls inside
the current frame.

Conventions of the embedding:

* C `double` values are exact rationals (`ℚ`); C `int` values are `Int`
  (the integers the program computes in its run never exceed `43200`, so no
  wrap-around is modelled).  Every `+`, `-`, `*`, `/` and `+=` on doubles is
  therefore exact here, whereas in the compiled program each one rounds to
  binary64.  What is proved below is proved of the exact arithmetic; a
  property that rounding decides (whether `elapsedtm` ends a hair above
  `43200`, whether `minutetm + hourtm` and `elapsedtm` agree to the last bit)
  is outside the embedding and is not stated.
* A computation that would read or write outside the table, or divide by
  zero, stops with a `Fault`; the `while` loop of `main` is driven by a fuel
  counter and stops with `Fault.outOfFuel` when the counter is exhausted.
-/

namespace Sechprob

/-! ## Faults and checked primitive operations -/

/-- Ways in which a run of the embedded program can go wrong. -/
inductive Fault where
  | outOfBounds
  | zeroDivisor
  | outOfFuel
  deriving DecidableEq, Repr

/-- Result of a run: a value, or the fault that stopped it. -/
inductive Run (α : Type) where
  | ok : α → Run α
  | fault : Fault → Run α
  deriving DecidableEq, Repr

/-- Sequencing of runs: the first fault wins. -/
def Run.bind {α β : Type} : Run α → (α → Run β) → Run β
  | Run.ok a, f => f a
  | Run.fault e, _ => Run.fault e

instance : Monad Run where
  pure := Run.ok
  bind := Run.bind

/-- Division of doubles, `a / b`; a zero divisor is a fault. -/
def fdiv (a b : ℚ) : Run ℚ :=
  if b = 0 then Run.fault Fault.zeroDivisor else Run.ok (a / b)

/-- Division of ints, `a / b` (C truncates toward zero); a zero divisor is a fault. -/
def idiv (a b : Int) : Run Int :=
  if b = 0 then Run.fault Fault.zeroDivisor else Run.ok (Int.tdiv a b)

/-- Conversion `( int )x` of a double: truncation toward zero. -/
def toInt (x : ℚ) : Int :=
  Int.tdiv x.num x.den

/-- Read `MHR[ i ]`; an index outside the table is a fault. -/
def readAt (t : List ℚ) (i : Int) : Run ℚ :=
  if 0 ≤ i ∧ i < t.length then
    match t[i.toNat]? with
    | some v => Run.ok v
    | none => Run.fault Fault.outOfBounds
  else Run.fault Fault.outOfBounds

/-- Write `MHR[ i ] = v`; an index outside the table is a fault. -/
def writeAt (t : List ℚ) (i : Int) (v : ℚ) : Run (List ℚ) :=
  if 0 ≤ i ∧ i < t.length then Run.ok (t.set i.toNat v)
  else Run.fault Fault.outOfBounds

/-! ## Globals -/

/-- Global `static int mState = 0;` -/
def mState : Int := 0

/-- Global `static int hState = 1;` -/
def hState : Int := 1

/-- Size of one double in bytes, `sizeof( MHR[ 0 ] )`. -/
def sizeofDouble : Nat := 8

/-- Size of the eleven-element table in bytes, `sizeof( MHR )`. -/
def sizeofMHR : Nat := 11 * sizeofDouble

/-- Global `static size_t MHRSZ = sizeof( MHR ) / sizeof( MHR[ 0 ] );` -/
def MHRSZ : Nat := sizeofMHR / sizeofDouble

/-- Global `static double MHR[ 11 ] = { 0 };` — the table before `initMHR` runs. -/
def MHR0 : List ℚ := List.replicate 11 0

/-! ## initMHR -/

/-- Body of the first loop of `initMHR` for one value of `n`. -/
def initEntry (t : List ℚ) (n : Int) : Run (List ℚ) := do
  let hrs : Int := n
  let mins ← idiv (n * 60) 11
  let q ← fdiv ((n : ℚ) * 60) 11
  let secs : ℚ := (q - (mins : ℚ)) * 60
  writeAt t (n - 1) (((3600 * hrs + 60 * mins : Int) : ℚ) + secs)

/-- First loop of `initMHR`: `for ( n = 1; n <= MHRSZ; n++ )`, over the
values of `n` still to be visited. -/
def initFill (t : List ℚ) : List Nat → Run (List ℚ)
  | [] => Run.ok t
  | n :: ns => do
    let t1 ← initEntry t (n : Int)
    initFill t1 ns

/-- One printed line `hh:mm:ss.nnnnnnnnn` of `initMHR`, before formatting. -/
structure HMS where
  hrs : Int
  mins : Int
  secs : ℚ
  deriving DecidableEq, Repr

/-- Body of the second loop of `initMHR` for one value of `n`. -/
def showEntry (t : List ℚ) (n : Int) : Run HMS := do
  let x ← readAt t n
  let h ← fdiv x 3600
  let hrs : Int := toInt h
  let x1 ← readAt t n
  let m ← fdiv (x1 - ((hrs * 3600 : Int) : ℚ)) 60
  let mins : Int := toInt m
  let x2 ← readAt t n
  let secs : ℚ := x2 - ((hrs * 3600 : Int) : ℚ) - ((mins * 60 : Int) : ℚ)
  Run.ok { hrs := hrs, mins := mins, secs := secs }

/-- Second loop of `initMHR`: `for ( n = 0; n < MHRSZ; n++ )`, over the
values of `n` still to be visited. -/
def showAll (t : List ℚ) : List Nat → Run (List HMS)
  | [] => Run.ok []
  | n :: ns => do
    let l ← showEntry t (n : Int)
    let ls ← showAll t ns
    Run.ok (l :: ls)

/-- The function `initMHR`: fills the table starting from `t` and returns it
together with the lines it prints. -/
def initMHRFrom (t : List ℚ) : Run (List ℚ × List HMS) := do
  let t1 ← initFill t (List.range' 1 MHRSZ)
  let ls ← showAll t1 (List.range MHRSZ)
  Run.ok (t1, ls)

/-- The function `initMHR` run on the zero-initialised global table. -/
def initMHR : Run (List ℚ × List HMS) :=
  initMHRFrom MHR0

/-! ## hasMHR -/

/-- Loop of `hasMHR` over the indices still to be visited. -/
def hasMHRScan (t : List ℚ) (scEnterTm scLeaveTm : ℚ) : List Nat → Run Int
  | [] => Run.ok (-1)
  | n :: ns => do
    let x ← readAt t (n : Int)
    if x > scEnterTm then do
      let y ← readAt t (n : Int)
      if y < scLeaveTm then Run.ok (n : Int)
      else hasMHRScan t scEnterTm scLeaveTm ns
    else hasMHRScan t scEnterTm scLeaveTm ns

/-- The function `hasMHR( scEnterTm, scLeaveTm )` over the table `t`:
`for ( n = 0; n < ( MHRSZ - 1 ); n++ )`. -/
def hasMHR (t : List ℚ) (scEnterTm scLeaveTm : ℚ) : Run Int :=
  hasMHRScan t scEnterTm scLeaveTm (List.range (MHRSZ - 1))

/-! ## main -/

/-- Local variables of `main` that the loop reads or writes; the doubles are
exact rationals. -/
structure Sim where
  state : Int
  mhrndx : Int
  minuteN : Int
  hourN : Int
  elapsedtm : ℚ
  scEnterTm : ℚ
  scLeaveTm : ℚ
  minutetm : ℚ
  hourtm : ℚ
  partialdelta : ℚ
  remainingdelta : ℚ
  deriving DecidableEq, Repr

/-- The switch `state = state == mState ? hState : mState;` -/
def switchState (state : Int) : Int :=
  if state = mState then hState else mState

/-- Guard of the loop: `( int )elapsedtm < 43200`. -/
def loopGuard (s : Sim) : Bool :=
  decide (toInt s.elapsedtm < 43200)

/-- Lines 89–98: a frame without a rendezvous goes whole to the current state. -/
def wholeFrame (fulldelta : ℚ) (s : Sim) : Sim :=
  if s.state = mState then
    { s with minutetm := s.minutetm + fulldelta, minuteN := s.minuteN + 1 }
  else
    { s with hourtm := s.hourtm + fulldelta, hourN := s.hourN + 1 }

/-- Lines 102–120: a frame with a rendezvous, `r` being the value read from
`MHR[ mhrndx ]`, is split between the current state and the opposite one. -/
def splitFrame (r fulldelta : ℚ) (s : Sim) : Sim :=
  let s := { s with partialdelta := r - s.scEnterTm }
  let s := { s with remainingdelta := fulldelta - s.partialdelta }
  let s :=
    if s.state = mState then
      { s with minutetm := s.minutetm + s.partialdelta, minuteN := s.minuteN + 1,
               hourtm := s.hourtm + s.remainingdelta, hourN := s.hourN + 1 }
    else
      { s with hourtm := s.hourtm + s.partialdelta, hourN := s.hourN + 1,
               minutetm := s.minutetm + s.remainingdelta, minuteN := s.minuteN + 1 }
  { s with state := switchState s.state }

/-- Lines 86–121: the search and the attribution of the frame. -/
def account (t : List ℚ) (fulldelta : ℚ) (s : Sim) : Run Sim := do
  let ndx ← hasMHR t s.scEnterTm s.scLeaveTm
  let s := { s with mhrndx := ndx }
  if s.mhrndx < 0 then
    Run.ok (wholeFrame fulldelta s)
  else do
    let r ← readAt t s.mhrndx
    Run.ok (splitFrame r fulldelta s)

/-- Lines 122–125: advance the clock and the frame, switch the state.  The two
`+=` are exact sums here. -/
def advance (fulldelta : ℚ) (s : Sim) : Sim :=
  { s with elapsedtm := s.elapsedtm + fulldelta,
           scEnterTm := s.scLeaveTm,
           scLeaveTm := s.scLeaveTm + fulldelta,
           state := switchState s.state }

/-- One pass through the body of the `while` loop. -/
def body (t : List ℚ) (fulldelta : ℚ) (s : Sim) : Run Sim := do
  let s1 ← account t fulldelta s
  Run.ok (advance fulldelta s1)

/-- The `while` loop of `main`, with a bound on the number of guard tests. -/
def loop (t : List ℚ) (fulldelta : ℚ) : Nat → Sim → Run Sim
  | 0, _ => Run.fault Fault.outOfFuel
  | fuel + 1, s =>
    if loopGuard s then do
      let s1 ← body t fulldelta s
      loop t fulldelta fuel s1
    else Run.ok s

/-- The body of the loop run `k` times in a row, the guard not consulted. -/
def iter (t : List ℚ) (fulldelta : ℚ) : Nat → Sim → Run Sim
  | 0, s => Run.ok s
  | k + 1, s => do
    let s1 ← body t fulldelta s
    iter t fulldelta k s1

/-- Number of passes, among `k` passes in a row, in which `hasMHR` returns an
index and the branch of lines 100–121 is taken. -/
def crossCount (t : List ℚ) (fulldelta : ℚ) : Nat → Sim → Run Nat
  | 0, _ => Run.ok 0
  | k + 1, s => do
    let r ← hasMHR t s.scEnterTm s.scLeaveTm
    let s1 ← body t fulldelta s
    let c ← crossCount t fulldelta k s1
    Run.ok (if r < 0 then c else c + 1)

/-- Relation between the clock, the frame and the two accumulated times that
holds each time the guard of the loop is tested. -/
def LoopInv (fulldelta : ℚ) (s : Sim) : Prop :=
  s.minutetm + s.hourtm = s.elapsedtm ∧ s.scEnterTm = s.elapsedtm ∧
    s.scLeaveTm = s.elapsedtm + fulldelta

/-- Values of the locals when the loop is first reached (lines 50–82). -/
def initSim (fulldelta : ℚ) : Sim :=
  { state := mState, mhrndx := -1, minuteN := 0, hourN := 0, elapsedtm := 0,
    scEnterTm := 0, scLeaveTm := fulldelta, minutetm := 0, hourtm := 0,
    partialdelta := 0, remainingdelta := 0 }

/-- Lines 127–128: the correction of `minutetm` and the last switch. -/
def finish (s : Sim) : Sim :=
  { s with minutetm := s.minutetm - (s.elapsedtm - 43200), state := switchState s.state }

/-- What `main` prints after the loop, before formatting. -/
structure Report where
  mhrLines : List HMS
  fulldelta : ℚ
  minutetm : ℚ
  minuteN : Int
  hourtm : ℚ
  hourN : Int
  sum : ℚ
  diff : ℚ
  lastState : String
  pMinute : ℚ
  pHour : ℚ
  deriving DecidableEq, Repr

/-- Locals of `main` at loop exit. -/
def mainLoop (fuel : Nat) : Run Sim := do
  let fulldelta ← fdiv 43200 1427
  let (t, _) ← initMHR
  loop t fulldelta fuel (initSim fulldelta)

/-- Locals of `main` after line 128. -/
def mainSim (fuel : Nat) : Run Sim := do
  let s ← mainLoop fuel
  Run.ok (finish s)

/-- Lines 130–145: the values handed to `printf`. -/
def report (ls : List HMS) (fulldelta : ℚ) (s : Sim) : Run Report := do
  let pm ← fdiv s.minutetm 43200
  let ph ← fdiv s.hourtm 43200
  Run.ok { mhrLines := ls, fulldelta := fulldelta,
           minutetm := s.minutetm, minuteN := s.minuteN,
           hourtm := s.hourtm, hourN := s.hourN,
           sum := s.minutetm + s.hourtm, diff := s.minutetm - s.hourtm,
           lastState := if s.state = mState then "m-state" else "h-state",
           pMinute := pm, pHour := ph }

/-- The function `main`: the whole program, returning what it prints. -/
def main (fuel : Nat) : Run Report := do
  let fulldelta ← fdiv 43200 1427
  let (t, ls) ← initMHR
  let s ← loop t fulldelta fuel (initSim fulldelta)
  report ls fulldelta (finish s)

/-! ## The table after `initMHR` -/

/-- The table as `initMHR` leaves it. -/
def MHRtab : List ℚ :=
  [43200 / 11, 86400 / 11, 129600 / 11, 172800 / 11, 216000 / 11, 259200 / 11,
   302400 / 11, 345600 / 11, 388800 / 11, 432000 / 11, 43200]

/-- The lines `initMHR` prints. -/
def MHRlines : List HMS :=
  [{ hrs := 1, mins := 5, secs := 300 / 11 }, { hrs := 2, mins := 10, secs := 600 / 11 },
   { hrs := 3, mins := 16, secs := 240 / 11 }, { hrs := 4, mins := 21, secs := 540 / 11 },
   { hrs := 5, mins := 27, secs := 180 / 11 }, { hrs := 6, mins := 32, secs := 480 / 11 },
   { hrs := 7, mins := 38, secs := 120 / 11 }, { hrs := 8, mins := 43, secs := 420 / 11 },
   { hrs := 9, mins := 49, secs := 60 / 11 }, { hrs := 10, mins := 54, secs := 360 / 11 },
   { hrs := 12, mins := 0, secs := 0 }]

/-- The step of the simulation, `43200.0 / 1427.0`. -/
def stepSize : ℚ := 43200 / 1427

/-! ## Basic facts about runs and the checked primitives -/

@[simp] theorem bind_ok {α β : Type} (a : α) (f : α → Run β) :
    (Run.ok a >>= f) = f a := rfl

@[simp] theorem bind_fault {α β : Type} (e : Fault) (f : α → Run β) :
    (Run.fault e >>= f) = Run.fault e := rfl

@[simp] theorem pure_eq_ok {α : Type} (a : α) : (pure a : Run α) = Run.ok a := rfl

theorem MHRSZ_eq : MHRSZ = 11 := by decide

theorem fdiv_ok (a b : ℚ) (hb : b ≠ 0) : fdiv a b = Run.ok (a / b) := by
  simp [fdiv, hb]

theorem idiv_ok (a b : Int) (hb : b ≠ 0) : idiv a b = Run.ok (Int.tdiv a b) := by
  simp [idiv, hb]

theorem readAt_ok (t : List ℚ) (n : Nat) (h : n < t.length) :
    readAt t (n : Int) = Run.ok (t.getD n 0) := by
  have h1 : (0 : Int) ≤ (n : Int) ∧ (n : Int) < (t.length : Int) :=
    ⟨Int.natCast_nonneg n, by exact_mod_cast h⟩
  simp [readAt, h1, List.getElem?_eq_getElem h, List.getD_eq_getElem?_getD]

theorem readAt_fault (t : List ℚ) (i : Int) (h : i < 0 ∨ (t.length : Int) ≤ i) :
    readAt t i = Run.fault Fault.outOfBounds := by
  have h1 : ¬ ((0 : Int) ≤ i ∧ i < (t.length : Int)) := by omega
  simp [readAt, h1]

theorem writeAt_ok (t : List ℚ) (n : Nat) (v : ℚ) (h : n < t.length) :
    writeAt t (n : Int) v = Run.ok (t.set n v) := by
  have h1 : (0 : Int) ≤ (n : Int) ∧ (n : Int) < (t.length : Int) :=
    ⟨Int.natCast_nonneg n, by exact_mod_cast h⟩
  simp [writeAt, h1]

/-- The value `initMHR` stores for `n` is `n * 43200 / 11`, whatever `n`. -/
theorem initEntry_eq (t : List ℚ) (n : Nat) (h1 : 1 ≤ n) (h2 : n ≤ t.length) :
    initEntry t (n : Int) = Run.ok (t.set (n - 1) ((n : ℚ) * 43200 / 11)) := by
  have hw := writeAt_ok t (n - 1)
    ((((3600 * (n : Int) + 60 * Int.tdiv ((n : Int) * 60) 11 : Int)) : ℚ) +
      ((n : ℚ) * 60 / 11 - ((Int.tdiv ((n : Int) * 60) 11 : Int) : ℚ)) * 60) (by omega)
  have hc : (((n - 1 : Nat) : Int)) = (n : Int) - 1 := by omega
  rw [hc] at hw
  have hv : (((3600 * (n : Int) + 60 * Int.tdiv ((n : Int) * 60) 11 : Int)) : ℚ) +
      ((n : ℚ) * 60 / 11 - ((Int.tdiv ((n : Int) * 60) 11 : Int) : ℚ)) * 60
      = (n : ℚ) * 43200 / 11 := by
    push_cast
    ring
  rw [hv] at hw
  simp only [initEntry, idiv_ok _ 11 (by decide), fdiv_ok _ 11 (by norm_num), bind_ok,
    Int.cast_natCast]
  rw [← hw, hv]

/-- Evaluation of `initMHR` on the zero-initialised table. -/
theorem initMHR_eq : initMHR = Run.ok (MHRtab, MHRlines) := by decide!

theorem MHRtab_length : MHRtab.length = 11 := rfl

theorem MHRtab_getD (i : Nat) (hi : i ≤ 10) :
    MHRtab.getD i 0 = ((i : ℚ) + 1) * 43200 / 11 := by
  interval_cases i <;> simp [MHRtab] <;> norm_num

/-! ## What `hasMHR` returns -/

/-- Entry `n` of the table `t` lies strictly inside the frame `(a, b)`. -/
def inFrame (t : List ℚ) (a b : ℚ) (n : Nat) : Prop :=
  a < t.getD n 0 ∧ t.getD n 0 < b

instance (t : List ℚ) (a b : ℚ) (n : Nat) : Decidable (inFrame t a b n) := by
  unfold inFrame
  exact inferInstance

/-- One step of the scan at an index inside the table. -/
theorem hasMHRScan_cons (t : List ℚ) (a b : ℚ) (n : Nat) (ns : List Nat)
    (h : n < t.length) :
    hasMHRScan t a b (n :: ns) =
      if inFrame t a b n then Run.ok (n : Int) else hasMHRScan t a b ns := by
  have hr := readAt_ok t n h
  simp only [hasMHRScan, hr, bind_ok, gt_iff_lt]
  by_cases h1 : a < t.getD n 0
  · by_cases h2 : t.getD n 0 < b
    · rw [if_pos h1, if_pos h2, if_pos (show inFrame t a b n from ⟨h1, h2⟩)]
    · rw [if_pos h1, if_neg h2, if_neg (show ¬ inFrame t a b n from fun h => h2 h.2)]
  · rw [if_neg h1, if_neg (show ¬ inFrame t a b n from fun h => h1 h.1)]

/-- The scan over the indices `k, k+1, …, k+m-1`, all inside the table, never
faults; it returns the first index whose entry is in the frame, or `-1` when
there is none. -/
theorem hasMHRScan_range (t : List ℚ) (a b : ℚ) (m : Nat) :
    ∀ k : Nat, k + m ≤ t.length →
      ∃ r : Int, hasMHRScan t a b (List.range' k m) = Run.ok r ∧
        ((r = -1 ∧ ∀ i : Nat, k ≤ i → i < k + m → ¬ inFrame t a b i) ∨
         (∃ i : Nat, k ≤ i ∧ i < k + m ∧ r = (i : Int) ∧ inFrame t a b i ∧
            ∀ j : Nat, k ≤ j → j < i → ¬ inFrame t a b j)) := by
  induction m with
  | zero =>
    intro k _
    exact ⟨-1, by simp [hasMHRScan], Or.inl ⟨rfl, by intro i h1 h2; omega⟩⟩
  | succ m ih =>
    intro k hk
    rw [List.range'_succ, hasMHRScan_cons t a b k _ (by omega)]
    obtain ⟨r, hr1, hr2⟩ := ih (k + 1) (by omega)
    by_cases hin : inFrame t a b k
    · rw [if_pos hin]
      refine ⟨(k : Int), rfl, Or.inr ⟨k, le_refl k, by omega, rfl, hin, ?_⟩⟩
      intro j h1 h2
      omega
    · rw [if_neg hin]
      refine ⟨r, hr1, ?_⟩
      rcases hr2 with ⟨hm1, hnone⟩ | ⟨i, hi1, hi2, hri, hi3, hi4⟩
      · refine Or.inl ⟨hm1, ?_⟩
        intro i h1 h2
        by_cases hik : i = k
        · rw [hik]; exact hin
        · exact hnone i (by omega) (by omega)
      · refine Or.inr ⟨i, by omega, by omega, hri, hi3, ?_⟩
        intro j h1 h2
        by_cases hjk : j = k
        · rw [hjk]; exact hin
        · exact hi4 j (by omega) h2

/-- On a table of eleven entries `hasMHR` never faults: it returns `-1` when
none of the entries `0..9` is in the frame, and otherwise the first index in
`0..9` whose entry is. -/
theorem hasMHR_spec (t : List ℚ) (a b : ℚ) (ht : t.length = 11) :
    ∃ r : Int, hasMHR t a b = Run.ok r ∧
      ((r = -1 ∧ ∀ i : Nat, i < 10 → ¬ inFrame t a b i) ∨
       (∃ i : Nat, i < 10 ∧ r = (i : Int) ∧ inFrame t a b i ∧
          ∀ j : Nat, j < i → ¬ inFrame t a b j)) := by
  obtain ⟨r, h1, h2⟩ := hasMHRScan_range t a b 10 0 (by omega)
  refine ⟨r, ?_, ?_⟩
  · have h10 : MHRSZ - 1 = 10 := by decide
    rw [hasMHR, h10, List.range_eq_range']
    exact h1
  · rcases h2 with ⟨hm1, hnone⟩ | ⟨i, _, hi2, hri, hi3, hi4⟩
    · exact Or.inl ⟨hm1, fun i hi => hnone i (Nat.zero_le i) (by omega)⟩
    · exact Or.inr ⟨i, by omega, hri, hi3, fun j hj => hi4 j (Nat.zero_le j) hj⟩

/-! ## One pass through the loop body -/

theorem account_none (t : List ℚ) (fd : ℚ) (s : Sim)
    (h : hasMHR t s.scEnterTm s.scLeaveTm = Run.ok (-1)) :
    account t fd s = Run.ok (wholeFrame fd { s with mhrndx := -1 }) := by
  simp [account, h]

theorem account_some (t : List ℚ) (fd : ℚ) (s : Sim) (i : Nat) (hi : i < t.length)
    (h : hasMHR t s.scEnterTm s.scLeaveTm = Run.ok (i : Int)) :
    account t fd s = Run.ok (splitFrame (t.getD i 0) fd { s with mhrndx := (i : Int) }) := by
  have hneg : ¬ ((i : Int) < 0) := by omega
  simp only [account, h, bind_ok, hneg, if_false, readAt_ok t i hi]

/-- On a table of eleven entries the body never faults: either none of the
entries `0..9` is in the frame and the frame goes whole to the current state,
or the frame is split at the first of them that is. -/
theorem body_cases (t : List ℚ) (fd : ℚ) (s : Sim) (ht : t.length = 11) :
    ((∀ i : Nat, i < 10 → ¬ inFrame t s.scEnterTm s.scLeaveTm i) ∧
      body t fd s = Run.ok (advance fd (wholeFrame fd { s with mhrndx := -1 }))) ∨
    (∃ i : Nat, i < 10 ∧ inFrame t s.scEnterTm s.scLeaveTm i ∧
      (∀ j : Nat, j < i → ¬ inFrame t s.scEnterTm s.scLeaveTm j) ∧
      body t fd s =
        Run.ok (advance fd (splitFrame (t.getD i 0) fd { s with mhrndx := (i : Int) }))) := by
  obtain ⟨r, hr, hcase⟩ := hasMHR_spec t s.scEnterTm s.scLeaveTm ht
  rcases hcase with ⟨hm1, hnone⟩ | ⟨i, hi, hri, hin, hfirst⟩
  · left
    rw [hm1] at hr
    exact ⟨hnone, by simp only [body, account_none t fd s hr, bind_ok]⟩
  · right
    rw [hri] at hr
    exact ⟨i, hi, hin, hfirst,
      by simp only [body, account_some t fd s i (by omega) hr, bind_ok]⟩

theorem advance_wholeFrame_clock (fd : ℚ) (s : Sim) :
    (advance fd (wholeFrame fd s)).elapsedtm = s.elapsedtm + fd ∧
    (advance fd (wholeFrame fd s)).scEnterTm = s.scLeaveTm ∧
    (advance fd (wholeFrame fd s)).scLeaveTm = s.scLeaveTm + fd := by
  unfold wholeFrame advance
  split_ifs <;> simp

theorem advance_splitFrame_clock (r fd : ℚ) (s : Sim) :
    (advance fd (splitFrame r fd s)).elapsedtm = s.elapsedtm + fd ∧
    (advance fd (splitFrame r fd s)).scEnterTm = s.scLeaveTm ∧
    (advance fd (splitFrame r fd s)).scLeaveTm = s.scLeaveTm + fd := by
  unfold splitFrame advance
  simp only
  split_ifs <;> simp

/-- The body never faults on a table of eleven entries, and moves the clock
and the frame forward by one step. -/
theorem body_clock (t : List ℚ) (fd : ℚ) (s : Sim) (ht : t.length = 11) :
    ∃ s1, body t fd s = Run.ok s1 ∧ s1.elapsedtm = s.elapsedtm + fd ∧
      s1.scEnterTm = s.scLeaveTm ∧ s1.scLeaveTm = s.scLeaveTm + fd := by
  rcases body_cases t fd s ht with ⟨_, hb⟩ | ⟨i, _, _, _, hb⟩
  · exact ⟨_, hb, advance_wholeFrame_clock fd _⟩
  · exact ⟨_, hb, advance_splitFrame_clock _ fd _⟩

/-- The body adds one to `minuteN + hourN` when `hasMHR` finds nothing in the
frame and two when it finds a rendezvous. -/
theorem body_counts (t : List ℚ) (fd : ℚ) (s : Sim) (ht : t.length = 11) :
    ∃ (r : Int) (s1 : Sim), hasMHR t s.scEnterTm s.scLeaveTm = Run.ok r ∧
      body t fd s = Run.ok s1 ∧
      s1.minuteN + s1.hourN = s.minuteN + s.hourN + (if r < 0 then 1 else 2) := by
  obtain ⟨r, hr, hcase⟩ := hasMHR_spec t s.scEnterTm s.scLeaveTm ht
  rcases hcase with ⟨hm1, _⟩ | ⟨i, hi, hri, _, _⟩
  · rw [hm1] at hr
    have hb : body t fd s = Run.ok (advance fd (wholeFrame fd { s with mhrndx := -1 })) := by
      simp only [body, account_none t fd s hr, bind_ok]
    refine ⟨-1, _, hr, hb, ?_⟩
    rw [if_pos (by decide : (-1 : Int) < 0)]
    unfold wholeFrame advance
    split_ifs <;> simp <;> ring
  · rw [hri] at hr
    have hb : body t fd s =
        Run.ok (advance fd (splitFrame (t.getD i 0) fd { s with mhrndx := (i : Int) })) := by
      simp only [body, account_some t fd s i (by omega) hr, bind_ok]
    refine ⟨(i : Int), _, hr, hb, ?_⟩
    have hneg : ¬ ((i : Int) < 0) := by omega
    rw [if_neg hneg]
    unfold splitFrame advance
    simp only
    split_ifs <;> simp <;> ring

/-! ## The loop -/

/-- After `k` passes the clock and the end of the frame have moved by `k` steps. -/
theorem iter_clock (t : List ℚ) (fd : ℚ) (ht : t.length = 11) :
    ∀ (k : Nat) (s : Sim), ∃ sk, iter t fd k s = Run.ok sk ∧
      sk.elapsedtm = s.elapsedtm + (k : ℚ) * fd ∧
      sk.scLeaveTm = s.scLeaveTm + (k : ℚ) * fd := by
  intro k
  induction k with
  | zero =>
    intro s
    exact ⟨s, rfl, by simp, by simp⟩
  | succ k ih =>
    intro s
    obtain ⟨s1, hb, he, _, hl⟩ := body_clock t fd s ht
    obtain ⟨sk, hk, hke, hkl⟩ := ih s1
    refine ⟨sk, ?_, ?_, ?_⟩
    · simp only [iter, hb, bind_ok, hk]
    · rw [hke, he]; push_cast; ring
    · rw [hkl, hl]; push_cast; ring

/-- If the guard holds after each of the first `k` passes and fails after the
`k`-th, the loop makes exactly `k` passes, provided it may test the guard
more than `k` times. -/
theorem loop_eq_iter (t : List ℚ) (fd : ℚ) :
    ∀ (k fuel : Nat) (s : Sim), k < fuel →
      (∀ j : Nat, j < k → ∃ sj, iter t fd j s = Run.ok sj ∧ loopGuard sj = true) →
      (∃ sk, iter t fd k s = Run.ok sk ∧ loopGuard sk = false) →
      loop t fd fuel s = iter t fd k s := by
  intro k
  induction k with
  | zero =>
    intro fuel s hf _ hlast
    obtain ⟨sk, hsk, hg⟩ := hlast
    obtain ⟨f, rfl⟩ : ∃ f, fuel = f + 1 := ⟨fuel - 1, by omega⟩
    have hs : sk = s := by
      simp only [iter, Run.ok.injEq] at hsk
      exact hsk.symm
    rw [hs] at hg
    simp [loop, iter, hg]
  | succ k ih =>
    intro fuel s hf hpre hlast
    obtain ⟨f, rfl⟩ : ∃ f, fuel = f + 1 := ⟨fuel - 1, by omega⟩
    obtain ⟨s0, hs0, hg0⟩ := hpre 0 (by omega)
    have hs : s0 = s := by
      simp only [iter, Run.ok.injEq] at hs0
      exact hs0.symm
    rw [hs] at hg0
    simp only [loop, hg0, if_true, iter]
    cases hb : body t fd s with
    | fault e => rfl
    | ok s1 =>
      simp only [bind_ok]
      apply ih f s1 (by omega)
      · intro j hj
        have := hpre (j + 1) (by omega)
        simpa only [iter, hb, bind_ok] using this
      · simpa only [iter, hb, bind_ok] using hlast

/-- If the body never faults and the guard holds after each of the first
`fuel - 1` passes, a loop limited to `fuel` tests of the guard runs out of fuel. -/
theorem loop_short (t : List ℚ) (fd : ℚ) (htot : ∀ s, ∃ s1, body t fd s = Run.ok s1) :
    ∀ (fuel : Nat) (s : Sim),
      (∀ j : Nat, j < fuel → ∃ sj, iter t fd j s = Run.ok sj ∧ loopGuard sj = true) →
      loop t fd fuel s = Run.fault Fault.outOfFuel := by
  intro fuel
  induction fuel with
  | zero =>
    intro s _
    rfl
  | succ f ih =>
    intro s hpre
    obtain ⟨s0, hs0, hg0⟩ := hpre 0 (by omega)
    have hs : s0 = s := by
      simp only [iter, Run.ok.injEq] at hs0
      exact hs0.symm
    rw [hs] at hg0
    obtain ⟨s1, hb⟩ := htot s
    simp only [loop, hg0, if_true, hb, bind_ok]
    apply ih s1
    intro j hj
    have := hpre (j + 1) (by omega)
    simpa only [iter, hb, bind_ok] using this

/-- The conversion to `int` of a non-negative double is below an integer `n`
exactly when the double itself is. -/
theorem toInt_lt_iff (x : ℚ) (hx : 0 ≤ x) (n : Int) : toInt x < n ↔ x < (n : ℚ) := by
  have hnum : 0 ≤ x.num := Rat.num_nonneg.mpr hx
  have hden : (0 : Int) ≤ (x.den : Int) := Int.natCast_nonneg _
  rw [toInt, Int.tdiv_eq_ediv hnum hden, ← Rat.floor_def, Int.floor_lt]

/-- With the step `43200/1427`, the guard holds on a state whose clock shows
`k` steps exactly when `k < 1427`. -/
theorem loopGuard_iff (s : Sim) (k : Nat) (h : s.elapsedtm = (k : ℚ) * stepSize) :
    loopGuard s = true ↔ k < 1427 := by
  have hx : (0 : ℚ) ≤ s.elapsedtm := by
    rw [h, stepSize]; positivity
  rw [loopGuard, decide_eq_true_iff, toInt_lt_iff _ hx, h, stepSize]
  have h1427 : ((k : ℚ) * (43200 / 1427) < ((43200 : Int) : ℚ)) ↔ (k : ℚ) < 1427 := by
    constructor
    · intro hk
      have : (k : ℚ) * (43200 / 1427) < 1427 * (43200 / 1427) := by
        have e : (1427 : ℚ) * (43200 / 1427) = ((43200 : Int) : ℚ) := by norm_num
        rw [e]; exact hk
      exact lt_of_mul_lt_mul_right this (by norm_num)
    · intro hk
      have : (k : ℚ) * (43200 / 1427) < 1427 * (43200 / 1427) :=
        mul_lt_mul_of_pos_right hk (by norm_num)
      have e : (1427 : ℚ) * (43200 / 1427) = ((43200 : Int) : ℚ) := by norm_num
      rw [e] at this; exact this
  rw [h1427]
  exact_mod_cast Iff.rfl

/-! ## The run of `main` -/

/-- Locals of `main` at loop exit. -/
def exitSim : Sim :=
  { state := 1, mhrndx := -1, minuteN := 719, hourN := 718, elapsedtm := 43200,
    scEnterTm := 43200, scLeaveTm := 61689600 / 1427, minutetm := 339076800 / 15697,
    hourtm := 339033600 / 15697, partialdelta := 129600 / 15697,
    remainingdelta := 345600 / 15697 }

/-- Locals at the start of a pass whose frame, `(3900, 3900 + 43200/1427)`,
holds the first rendezvous. -/
def crossingSim : Sim :=
  { state := 0, mhrndx := -1, minuteN := 0, hourN := 0, elapsedtm := 3900,
    scEnterTm := 3900, scLeaveTm := 3900 + 43200 / 1427, minutetm := 3900,
    hourtm := 0, partialdelta := 0, remainingdelta := 0 }

/-- What `main` prints. -/
def finalReport : Report :=
  { mhrLines := MHRlines, fulldelta := 43200 / 1427,
    minutetm := 339076800 / 15697, minuteN := 719,
    hourtm := 339033600 / 15697, hourN := 718,
    sum := 43200, diff := 43200 / 15697, lastState := "m-state",
    pMinute := 7849 / 15697, pHour := 7848 / 15697 }

theorem fdiv_stepSize : fdiv 43200 1427 = Run.ok stepSize :=
  fdiv_ok 43200 1427 (by norm_num)

/-- Evaluation of 1427 passes through the body from the initial locals. -/
theorem iter_eval : iter MHRtab stepSize 1427 (initSim stepSize) = Run.ok exitSim := by
  decide!

/-- After `k` passes from the initial locals the clock shows `k` steps, and
the guard holds exactly when `k < 1427`. -/
theorem iter_guard (k : Nat) :
    ∃ sk, iter MHRtab stepSize k (initSim stepSize) = Run.ok sk ∧
      sk.elapsedtm = (k : ℚ) * stepSize ∧ (loopGuard sk = true ↔ k < 1427) := by
  obtain ⟨sk, hk, he, _⟩ := iter_clock MHRtab stepSize MHRtab_length k (initSim stepSize)
  have he1 : sk.elapsedtm = (k : ℚ) * stepSize := by
    rw [he]; simp [initSim]
  exact ⟨sk, hk, he1, loopGuard_iff sk k he1⟩

theorem loop_run (fuel : Nat) (h : 1427 < fuel) :
    loop MHRtab stepSize fuel (initSim stepSize) = Run.ok exitSim := by
  rw [loop_eq_iter MHRtab stepSize 1427 fuel (initSim stepSize) h, iter_eval]
  · intro j hj
    obtain ⟨sj, h1, _, h3⟩ := iter_guard j
    exact ⟨sj, h1, h3.mpr hj⟩
  · obtain ⟨sk, h1, _, h3⟩ := iter_guard 1427
    refine ⟨sk, h1, ?_⟩
    cases hg : loopGuard sk with
    | false => rfl
    | true => exact absurd (h3.mp hg) (by omega)

theorem loop_starved (fuel : Nat) (h : fuel ≤ 1427) :
    loop MHRtab stepSize fuel (initSim stepSize) = Run.fault Fault.outOfFuel := by
  apply loop_short MHRtab stepSize
  · intro s
    obtain ⟨s1, h1, _⟩ := body_clock MHRtab stepSize s MHRtab_length
    exact ⟨s1, h1⟩
  · intro j hj
    obtain ⟨sj, h1, _, h3⟩ := iter_guard j
    exact ⟨sj, h1, h3.mpr (by omega)⟩

theorem mainLoop_eq (fuel : Nat) :
    mainLoop fuel = loop MHRtab stepSize fuel (initSim stepSize) := by
  simp only [mainLoop, fdiv_stepSize, initMHR_eq, bind_ok]

theorem mainLoop_run (fuel : Nat) (h : 1427 < fuel) : mainLoop fuel = Run.ok exitSim := by
  rw [mainLoop_eq, loop_run fuel h]

theorem mainLoop_starved (fuel : Nat) (h : fuel ≤ 1427) :
    mainLoop fuel = Run.fault Fault.outOfFuel := by
  rw [mainLoop_eq, loop_starved fuel h]

theorem mainSim_run (fuel : Nat) (h : 1427 < fuel) :
    mainSim fuel = Run.ok (finish exitSim) := by
  simp only [mainSim, mainLoop_run fuel h, bind_ok]

theorem mainSim_starved (fuel : Nat) (h : fuel ≤ 1427) :
    mainSim fuel = Run.fault Fault.outOfFuel := by
  simp only [mainSim, mainLoop_starved fuel h, bind_fault]

theorem report_eval : report MHRlines stepSize (finish exitSim) = Run.ok finalReport := by
  decide!

theorem main_run (fuel : Nat) (h : 1427 < fuel) : main fuel = Run.ok finalReport := by
  simp only [main, fdiv_stepSize, initMHR_eq, bind_ok, loop_run fuel h]
  exact report_eval

theorem main_starved (fuel : Nat) (h : fuel ≤ 1427) :
    main fuel = Run.fault Fault.outOfFuel := by
  simp only [main, fdiv_stepSize, initMHR_eq, bind_ok, loop_starved fuel h, bind_fault]

/-! ## Claims about the rendezvous table -/

/-- C1: after `initMHR` the table has eleven entries and entry `i` equals
`(i+1) * 43200 / 11` for every `i` in `0..10`; the value the first loop
computes and stores for `n`, namely
`3600*n + 60*((n*60)/11) + ((n*60.0)/11.0 - (n*60)/11) * 60`, is `n * 43200 / 11`
for every `n` in `1..11`. -/
theorem initMHR_entries :
    ∃ t ls, initMHR = Run.ok (t, ls) ∧ t.length = 11 ∧
      (∀ i : Nat, i ≤ 10 → t[i]? = some (((i : ℚ) + 1) * 43200 / 11)) ∧
      (∀ (u : List ℚ) (n : Nat), 1 ≤ n → n ≤ 11 → u.length = 11 →
        initEntry u (n : Int) = Run.ok (u.set (n - 1) ((n : ℚ) * 43200 / 11))) := by
  refine ⟨MHRtab, MHRlines, initMHR_eq, MHRtab_length, ?_, ?_⟩
  · intro i hi
    have h := MHRtab_getD i hi
    have hl : i < MHRtab.length := by rw [MHRtab_length]; omega
    rw [List.getD_eq_getElem?_getD, List.getElem?_eq_getElem hl] at h
    rw [List.getElem?_eq_getElem hl]
    simpa using h
  · intro u n h1 h2 hu
    exact initEntry_eq u n h1 (by omega)

/-- C6 (as stated, refuted): it is not the case that every entry of the table
built by `initMHR` lies strictly inside `(0, 43200)` — the last one is `43200`. -/
theorem not_all_entries_below_43200 :
    ¬ ∃ t ls, initMHR = Run.ok (t, ls) ∧
      ∀ i : Nat, i ≤ 10 → 0 < t.getD i 0 ∧ t.getD i 0 < 43200 := by
  rintro ⟨t, ls, h, hall⟩
  rw [initMHR_eq] at h
  obtain ⟨rfl, _⟩ := Prod.mk.inj (Run.ok.inj h)
  have h10 := (hall 10 (le_refl 10)).2
  rw [MHRtab_getD 10 (le_refl 10)] at h10
  norm_num at h10

/-- C6 (amended): the eleven entries of the table built by `initMHR` are
strictly increasing, every entry satisfies `0 < MHR[i] ≤ 43200`, the entries
`0..9` are strictly below `43200`, and `MHR[10] = 43200`. -/
theorem entries_increasing_and_bounded :
    ∃ t ls, initMHR = Run.ok (t, ls) ∧ t.length = 11 ∧
      (∀ i : Nat, i < 10 → t.getD i 0 < t.getD (i + 1) 0) ∧
      (∀ i : Nat, i ≤ 10 → 0 < t.getD i 0 ∧ t.getD i 0 ≤ 43200) ∧
      (∀ i : Nat, i < 10 → t.getD i 0 < 43200) ∧
      t.getD 10 0 = 43200 := by
  refine ⟨MHRtab, MHRlines, initMHR_eq, MHRtab_length, ?_, ?_, ?_, ?_⟩
  · intro i hi
    rw [MHRtab_getD i (by omega), MHRtab_getD (i + 1) (by omega)]
    push_cast
    linarith
  · intro i hi
    rw [MHRtab_getD i hi]
    have h0 : (0 : ℚ) ≤ (i : ℚ) := Nat.cast_nonneg i
    have h1 : (i : ℚ) ≤ 10 := by exact_mod_cast hi
    constructor <;> linarith
  · intro i hi
    rw [MHRtab_getD i (by omega)]
    have h1 : (i : ℚ) + 1 ≤ 10 := by exact_mod_cast hi
    linarith
  · rw [MHRtab_getD 10 (le_refl 10)]
    norm_num

/-- Two entries of the table that lie in one frame of length `43200/1427`
are the same entry. -/
theorem frame_entry_unique (a : ℚ) (i j : Nat) (hi : i ≤ 10) (hj : j ≤ 10)
    (h1 : inFrame MHRtab a (a + stepSize) i) (h2 : inFrame MHRtab a (a + stepSize) j) :
    i = j := by
  unfold inFrame at h1 h2
  rw [MHRtab_getD i hi] at h1
  rw [MHRtab_getD j hj] at h2
  rw [stepSize] at h1 h2
  obtain ⟨h1a, h1b⟩ := h1
  obtain ⟨h2a, h2b⟩ := h2
  rcases Nat.lt_trichotomy i j with hlt | heq | hgt
  · exfalso
    have hc : (i : ℚ) + 1 ≤ (j : ℚ) := by exact_mod_cast hlt
    linarith
  · exact heq
  · exfalso
    have hc : (j : ℚ) + 1 ≤ (i : ℚ) := by exact_mod_cast hgt
    linarith

/-- C5: consecutive entries of the table built by `initMHR` differ by more
than one step `fulldelta = 43200/1427`; hence for every `a` the open frame
`(a, a + fulldelta)` contains at most one of the eleven entries, and an index
returned by `hasMHR` on such a frame, when not `-1`, is the only entry in it. -/
theorem spacing_invariant :
    ∃ t ls, initMHR = Run.ok (t, ls) ∧ fdiv 43200 1427 = Run.ok stepSize ∧
      (∀ i : Nat, i < 10 → stepSize < t.getD (i + 1) 0 - t.getD i 0) ∧
      (∀ (a : ℚ) (i j : Nat), i ≤ 10 → j ≤ 10 →
        inFrame t a (a + stepSize) i → inFrame t a (a + stepSize) j → i = j) ∧
      (∀ (a : ℚ) (r : Int), hasMHR t a (a + stepSize) = Run.ok r → r ≠ -1 →
        ∃ i : Nat, i ≤ 10 ∧ r = (i : Int) ∧ inFrame t a (a + stepSize) i ∧
          ∀ j : Nat, j ≤ 10 → inFrame t a (a + stepSize) j → j = i) := by
  refine ⟨MHRtab, MHRlines, initMHR_eq, fdiv_stepSize, ?_, ?_, ?_⟩
  · intro i hi
    rw [MHRtab_getD i (by omega), MHRtab_getD (i + 1) (by omega), stepSize]
    push_cast
    have e : ((i : ℚ) + 1 + 1) * 43200 / 11 - ((i : ℚ) + 1) * 43200 / 11 = 43200 / 11 := by
      ring
    rw [e]
    norm_num
  · intro a i j hi hj h1 h2
    exact frame_entry_unique a i j hi hj h1 h2
  · intro a r hr hne
    obtain ⟨r1, hr1, hcase⟩ := hasMHR_spec MHRtab a (a + stepSize) MHRtab_length
    rw [hr] at hr1
    have hrr : r = r1 := Run.ok.inj hr1
    rcases hcase with ⟨hm1, _⟩ | ⟨i, hi, hri, hin, _⟩
    · exact absurd (hrr.trans hm1) hne
    · refine ⟨i, by omega, hrr.trans hri, hin, ?_⟩
      intro j hj hjin
      exact frame_entry_unique a j i hj (by omega) hjin hin

/-- C7 (as stated, refuted): the last entry of the table, `MHR[10] = 43200`,
lies strictly inside the frame `(43199, 43201)`, yet `hasMHR( 43199, 43201 )`
returns `-1`. -/
theorem hasMHR_misses_last_entry :
    ∃ t ls, initMHR = Run.ok (t, ls) ∧ (43199 : ℚ) < 43201 ∧
      inFrame t 43199 43201 10 ∧ hasMHR t 43199 43201 = Run.ok (-1) := by
  refine ⟨MHRtab, MHRlines, initMHR_eq, by norm_num, ?_, ?_⟩
  · unfold inFrame
    rw [MHRtab_getD 10 (le_refl 10)]
    constructor <;> norm_num
  · decide!

/-- C7 (amended): `hasMHR` searches the entries `MHR[0..9]` only.  For every
`a` and `b` it returns without fault; the result is `-1` exactly when none of
`MHR[0..9]` lies strictly inside `(a, b)`, and otherwise it is the least index
`i` in `0..9` with `a < MHR[i] < b`. -/
theorem hasMHR_searches_first_ten :
    ∃ t ls, initMHR = Run.ok (t, ls) ∧
      ∀ a b : ℚ, ∃ r : Int, hasMHR t a b = Run.ok r ∧
        (r = -1 ↔ ∀ i : Nat, i < 10 → ¬ inFrame t a b i) ∧
        (r ≠ -1 → ∃ i : Nat, i < 10 ∧ r = (i : Int) ∧ inFrame t a b i ∧
          ∀ j : Nat, j < i → ¬ inFrame t a b j) := by
  refine ⟨MHRtab, MHRlines, initMHR_eq, ?_⟩
  intro a b
  obtain ⟨r, hr, hcase⟩ := hasMHR_spec MHRtab a b MHRtab_length
  refine ⟨r, hr, ?_, ?_⟩
  · rcases hcase with ⟨hm1, hnone⟩ | ⟨i, hi, hri, hin, _⟩
    · exact ⟨fun _ => hnone, fun _ => hm1⟩
    · constructor
      · intro h
        omega
      · intro h
        exact absurd hin (h i hi)
  · intro hne
    rcases hcase with ⟨hm1, _⟩ | ⟨i, hi, hri, hin, hfirst⟩
    · exact absurd hm1 hne
    · exact ⟨i, hi, hri, hin, hfirst⟩

/-! ## Claims about the simulation -/

/-- C2: when the simulation in `main` finishes (the loop, then the correction
`minutetm -= elapsedtm - 43200`), `minutetm + hourtm` equals `43200`; the
printed sum `S_m + S_h` is that value. -/
theorem final_sum_is_43200 (fuel : Nat) (h : 1427 < fuel) :
    ∃ (s : Sim) (r : Report), mainSim fuel = Run.ok s ∧ main fuel = Run.ok r ∧
      s.minutetm + s.hourtm = 43200 ∧ r.sum = 43200 := by
  refine ⟨finish exitSim, finalReport, mainSim_run fuel h, main_run fuel h, ?_, rfl⟩
  simp only [finish, exitSim]
  norm_num

theorem final_sum_is_43200_witness :
    1427 < 1428 ∧ ∃ (s : Sim) (r : Report), mainSim 1428 = Run.ok s ∧ main 1428 = Run.ok r ∧
      s.minutetm + s.hourtm = 43200 ∧ r.sum = 43200 :=
  ⟨by decide, final_sum_is_43200 1428 (by decide)⟩

/-- C3 (as stated, refuted): no run of `main` ends with `minutetm` in
`[23751.35, 23751.36)` and `hourtm` in `[19448.64, 19448.65)`. -/
theorem final_times_not_as_stated :
    ¬ ∃ (fuel : Nat) (r : Report), main fuel = Run.ok r ∧
      2375135 / 100 ≤ r.minutetm ∧ r.minutetm < 2375136 / 100 ∧
      1944864 / 100 ≤ r.hourtm ∧ r.hourtm < 1944865 / 100 := by
  rintro ⟨fuel, r, hr, h1, _, _, _⟩
  by_cases hf : 1427 < fuel
  · rw [main_run fuel hf] at hr
    have hrr : finalReport = r := Run.ok.inj hr
    rw [← hrr] at h1
    simp only [finalReport] at h1
    norm_num at h1
  · rw [main_starved fuel (by omega)] at hr
    cases hr

/-- C3 (amended): the simulation in `main` ends with `minutetm` about
`21601.37` seconds (`21601.37 ≤ minutetm < 21601.38`) and `hourtm` about
`21598.62` seconds (`21598.62 ≤ hourtm < 21598.63`); the printed probabilities
are `minutetm/43200` and `hourtm/43200`, and both round to `0.5000`
(each lies in `[0.49995, 0.50005)`). -/
theorem final_times (fuel : Nat) (h : 1427 < fuel) :
    ∃ r : Report, main fuel = Run.ok r ∧
      2160137 / 100 ≤ r.minutetm ∧ r.minutetm < 2160138 / 100 ∧
      2159862 / 100 ≤ r.hourtm ∧ r.hourtm < 2159863 / 100 ∧
      r.pMinute = r.minutetm / 43200 ∧ r.pHour = r.hourtm / 43200 ∧
      49995 / 100000 ≤ r.pMinute ∧ r.pMinute < 50005 / 100000 ∧
      49995 / 100000 ≤ r.pHour ∧ r.pHour < 50005 / 100000 := by
  refine ⟨finalReport, main_run fuel h, ?_⟩
  simp only [finalReport]
  norm_num

theorem final_times_witness :
    1427 < 1428 ∧ ∃ r : Report, main 1428 = Run.ok r ∧
      2160137 / 100 ≤ r.minutetm ∧ r.minutetm < 2160138 / 100 ∧
      2159862 / 100 ≤ r.hourtm ∧ r.hourtm < 2159863 / 100 ∧
      r.pMinute = r.minutetm / 43200 ∧ r.pHour = r.hourtm / 43200 ∧
      49995 / 100000 ≤ r.pMinute ∧ r.pMinute < 50005 / 100000 ∧
      49995 / 100000 ≤ r.pHour ∧ r.pHour < 50005 / 100000 :=
  ⟨by decide, final_times 1428 (by decide)⟩

/-- C4 (as stated, refuted): no run of `main` ends with
`minuteN + hourN = 1438`. -/
theorem counters_do_not_sum_to_1438 :
    ¬ ∃ (fuel : Nat) (s : Sim), mainSim fuel = Run.ok s ∧ s.minuteN + s.hourN = 1438 := by
  rintro ⟨fuel, s, hs, hsum⟩
  by_cases hf : 1427 < fuel
  · rw [mainSim_run fuel hf] at hs
    have hss : finish exitSim = s := Run.ok.inj hs
    rw [← hss] at hsum
    simp only [finish, exitSim] at hsum
    norm_num at hsum
  · rw [mainSim_starved fuel (by omega)] at hs
    cases hs

/-- C4 (amended): at the end of the simulation in `main` the step counters
are `minuteN = 719` and `hourN = 718`, so `minuteN + hourN = 1437 = 1427 + 10`;
each pass through the loop body adds one to `minuteN + hourN` when `hasMHR`
returns `-1` and two when it returns an index. -/
theorem counters_sum_to_1437 (fuel : Nat) (h : 1427 < fuel) :
    (∃ s : Sim, mainSim fuel = Run.ok s ∧ s.minuteN = 719 ∧ s.hourN = 718 ∧
      s.minuteN + s.hourN = 1427 + 10) ∧
    ∃ t ls, initMHR = Run.ok (t, ls) ∧
      ∀ (fd : ℚ) (s : Sim), ∃ (r : Int) (s1 : Sim),
        hasMHR t s.scEnterTm s.scLeaveTm = Run.ok r ∧ body t fd s = Run.ok s1 ∧
        s1.minuteN + s1.hourN = s.minuteN + s.hourN + (if r < 0 then 1 else 2) := by
  refine ⟨⟨finish exitSim, mainSim_run fuel h, rfl, rfl, rfl⟩,
    MHRtab, MHRlines, initMHR_eq, ?_⟩
  intro fd s
  exact body_counts MHRtab fd s MHRtab_length

theorem counters_sum_to_1437_witness :
    1427 < 1428 ∧
    ((∃ s : Sim, mainSim 1428 = Run.ok s ∧ s.minuteN = 719 ∧ s.hourN = 718 ∧
      s.minuteN + s.hourN = 1427 + 10) ∧
    ∃ t ls, initMHR = Run.ok (t, ls) ∧
      ∀ (fd : ℚ) (s : Sim), ∃ (r : Int) (s1 : Sim),
        hasMHR t s.scEnterTm s.scLeaveTm = Run.ok r ∧ body t fd s = Run.ok s1 ∧
        s1.minuteN + s1.hourN = s.minuteN + s.hourN + (if r < 0 then 1 else 2)) :=
  ⟨by decide, counters_sum_to_1437 1428 (by decide)⟩

/-- C8: the loop of `main` makes exactly 1427 passes.  After `k` passes
`elapsedtm = k * 43200/1427`, and the guard `( int )elapsedtm < 43200` holds
exactly when `k < 1427`; so the loop, allowed more than 1427 tests of its
guard, returns the locals reached after 1427 passes, and allowed fewer it is
still running.  For a non-negative `elapsedtm` the truncated comparison is
equivalent to `elapsedtm < 43200`. -/
theorem loop_makes_1427_passes :
    ∃ t ls, initMHR = Run.ok (t, ls) ∧ fdiv 43200 1427 = Run.ok stepSize ∧
      (∀ k : Nat, ∃ sk, iter t stepSize k (initSim stepSize) = Run.ok sk ∧
        sk.elapsedtm = (k : ℚ) * (43200 / 1427) ∧ (loopGuard sk = true ↔ k < 1427)) ∧
      (∀ fuel : Nat, 1427 < fuel →
        ∃ s, iter t stepSize 1427 (initSim stepSize) = Run.ok s ∧
          loop t stepSize fuel (initSim stepSize) = Run.ok s ∧ mainLoop fuel = Run.ok s) ∧
      (∀ fuel : Nat, fuel ≤ 1427 → mainLoop fuel = Run.fault Fault.outOfFuel) ∧
      (∀ s : Sim, 0 ≤ s.elapsedtm → (loopGuard s = true ↔ s.elapsedtm < 43200)) := by
  refine ⟨MHRtab, MHRlines, initMHR_eq, fdiv_stepSize, ?_, ?_, ?_, ?_⟩
  · intro k
    obtain ⟨sk, h1, h2, h3⟩ := iter_guard k
    exact ⟨sk, h1, by rw [h2, stepSize], h3⟩
  · intro fuel hf
    exact ⟨exitSim, iter_eval, loop_run fuel hf, mainLoop_run fuel hf⟩
  · intro fuel hf
    exact mainLoop_starved fuel hf
  · intro s hs
    rw [loopGuard, decide_eq_true_iff, toInt_lt_iff _ hs]
    norm_num

/-- C10: no table access is out of bounds and no divisor is zero.  The
divisor `sizeof( MHR[ 0 ] )` is not zero; `initMHR` runs without fault and
leaves a table of eleven entries; on it `hasMHR` runs without fault for every
frame and returns `-1` or an index in `0..10`; the read `MHR[ mhrndx ]` made
when that index is not negative is inside the table; one pass through the
loop body runs without fault from any locals; and `main` itself ends without
an out-of-bounds access or a zero divisor.  (An index outside `0..10` would
be reported as a fault.) -/
theorem no_fault :
    sizeofDouble ≠ 0 ∧
    ∃ t ls, initMHR = Run.ok (t, ls) ∧ t.length = 11 ∧
      (∀ a b : ℚ, ∃ r : Int, hasMHR t a b = Run.ok r ∧ (r = -1 ∨ (0 ≤ r ∧ r ≤ 10))) ∧
      (∀ (a b : ℚ) (r : Int), hasMHR t a b = Run.ok r → 0 ≤ r →
        ∃ v, readAt t r = Run.ok v) ∧
      (∀ (fd : ℚ) (s : Sim), ∃ s1, body t fd s = Run.ok s1) ∧
      (∀ fuel : Nat, 1427 < fuel → ∃ r, main fuel = Run.ok r) ∧
      (∀ fuel : Nat, fuel ≤ 1427 → main fuel = Run.fault Fault.outOfFuel) ∧
      (∀ i : Int, i < 0 ∨ 11 ≤ i → readAt t i = Run.fault Fault.outOfBounds) := by
  refine ⟨by decide, MHRtab, MHRlines, initMHR_eq, MHRtab_length, ?_, ?_, ?_, ?_, ?_, ?_⟩
  · intro a b
    obtain ⟨r, hr, hcase⟩ := hasMHR_spec MHRtab a b MHRtab_length
    refine ⟨r, hr, ?_⟩
    rcases hcase with ⟨hm1, _⟩ | ⟨i, hi, hri, _, _⟩
    · exact Or.inl hm1
    · exact Or.inr (by omega)
  · intro a b r hr h0
    obtain ⟨r1, hr1, hcase⟩ := hasMHR_spec MHRtab a b MHRtab_length
    rw [hr] at hr1
    have hrr : r = r1 := Run.ok.inj hr1
    rcases hcase with ⟨hm1, _⟩ | ⟨i, hi, hri, _, _⟩
    · omega
    · rw [hrr, hri]
      exact ⟨_, readAt_ok MHRtab i (by rw [MHRtab_length]; omega)⟩
  · intro fd s
    obtain ⟨s1, h1, _⟩ := body_clock MHRtab fd s MHRtab_length
    exact ⟨s1, h1⟩
  · intro fuel hf
    exact ⟨finalReport, main_run fuel hf⟩
  · intro fuel hf
    exact main_starved fuel hf
  · intro i hi
    apply readAt_fault
    rw [MHRtab_length]
    omega

/-! ## Further facts about one pass and about the run -/

/-- The body adds exactly one step to `minutetm + hourtm`. -/
theorem body_sum (t : List ℚ) (fd : ℚ) (s : Sim) (ht : t.length = 11) :
    ∃ s1, body t fd s = Run.ok s1 ∧
      s1.minutetm + s1.hourtm = s.minutetm + s.hourtm + fd := by
  rcases body_cases t fd s ht with ⟨_, hb⟩ | ⟨i, _, _, _, hb⟩
  · refine ⟨_, hb, ?_⟩
    unfold wholeFrame advance
    split_ifs <;> simp <;> ring
  · refine ⟨_, hb, ?_⟩
    unfold splitFrame advance
    simp only
    split_ifs <;> simp <;> ring

/-- The body keeps the loop invariant. -/
theorem body_LoopInv (t : List ℚ) (fd : ℚ) (s : Sim) (ht : t.length = 11)
    (hinv : LoopInv fd s) :
    ∃ s1, body t fd s = Run.ok s1 ∧ LoopInv fd s1 := by
  obtain ⟨s1, hb, he, hen, hl⟩ := body_clock t fd s ht
  obtain ⟨s2, hb2, hsum⟩ := body_sum t fd s ht
  rw [hb] at hb2
  have e : s1 = s2 := Run.ok.inj hb2
  rw [← e] at hsum
  obtain ⟨h1, h2, h3⟩ := hinv
  refine ⟨s1, hb, ?_, ?_, ?_⟩
  · rw [hsum, he, h1]
  · rw [hen, he, h3]
  · rw [hl, he, h3]

theorem initSim_LoopInv (fd : ℚ) : LoopInv fd (initSim fd) := by
  simp [LoopInv, initSim]

/-- Passes started from locals satisfying the invariant end in such locals. -/
theorem iter_LoopInv (t : List ℚ) (fd : ℚ) (ht : t.length = 11) :
    ∀ (k : Nat) (s : Sim), LoopInv fd s →
      ∃ sk, iter t fd k s = Run.ok sk ∧ LoopInv fd sk := by
  intro k
  induction k with
  | zero =>
    intro s hs
    exact ⟨s, rfl, hs⟩
  | succ k ih =>
    intro s hs
    obtain ⟨s1, hb, h1⟩ := body_LoopInv t fd s ht hs
    obtain ⟨sk, hk, hinv⟩ := ih s1 h1
    exact ⟨sk, by simp only [iter, hb, bind_ok, hk], hinv⟩

/-! ## Claims about one pass through the loop -/

/-- C11 (as stated, refuted): the entries `MHR[0]` and `MHR[1]` both lie
strictly inside the frame `(0, 10000)`, and `hasMHR( 0, 10000 )` returns the
index `0` without any failure. -/
theorem hasMHR_two_entries_no_failure :
    ∃ t ls, initMHR = Run.ok (t, ls) ∧ inFrame t 0 10000 0 ∧ inFrame t 0 10000 1 ∧
      hasMHR t 0 10000 = Run.ok 0 := by
  refine ⟨MHRtab, MHRlines, initMHR_eq, ?_, ?_, ?_⟩
  · unfold inFrame
    rw [MHRtab_getD 0 (by decide)]
    constructor <;> norm_num
  · unfold inFrame
    rw [MHRtab_getD 1 (by decide)]
    constructor <;> norm_num
  · decide!

/-- C11 (amended): the program has no check for several rendezvous in one
frame.  When more than one table entry lies strictly inside the frame
`(a, b)`, `hasMHR` returns without fault the least index in `0..9` whose entry
is inside, and the loop body goes on with that index.  In a frame of length
`fulldelta`, the only kind `main` passes, two distinct entries never lie
together. -/
theorem hasMHR_returns_first_of_several :
    ∃ t ls, initMHR = Run.ok (t, ls) ∧
      (∀ (a b : ℚ) (i j : Nat), i < j → j ≤ 10 → inFrame t a b i → inFrame t a b j →
        ∃ r : Nat, r ≤ i ∧ inFrame t a b r ∧ (∀ m : Nat, m < r → ¬ inFrame t a b m) ∧
          hasMHR t a b = Run.ok (r : Int) ∧
          ∀ (fd : ℚ) (s : Sim), s.scEnterTm = a → s.scLeaveTm = b →
            ∃ s1, account t fd s = Run.ok s1 ∧ s1.mhrndx = (r : Int) ∧
              ∃ s2, body t fd s = Run.ok s2) ∧
      (∀ (a : ℚ) (i j : Nat), i < j → j ≤ 10 →
        ¬ (inFrame t a (a + stepSize) i ∧ inFrame t a (a + stepSize) j)) := by
  refine ⟨MHRtab, MHRlines, initMHR_eq, ?_, ?_⟩
  swap
  · rintro a i j hij hj ⟨h1, h2⟩
    have := frame_entry_unique a i j (by omega) hj h1 h2
    omega
  intro a b i j hij hj hi _
  obtain ⟨r, hr, hcase⟩ := hasMHR_spec MHRtab a b MHRtab_length
  rcases hcase with ⟨_, hnone⟩ | ⟨m, hm, hrm, hmin, hfirst⟩
  · exact absurd hi (hnone i (by omega))
  · have hmi : m ≤ i := by
      by_contra hlt
      exact hfirst i (by omega) hi
    rw [hrm] at hr
    refine ⟨m, hmi, hmin, hfirst, hr, ?_⟩
    intro fd s ha hb
    rw [← ha, ← hb] at hr
    have hacc := account_some MHRtab fd s m (by rw [MHRtab_length]; omega) hr
    refine ⟨_, hacc, ?_, ?_⟩
    · unfold splitFrame
      simp only
      split_ifs <;> rfl
    · obtain ⟨s2, h2, _⟩ := body_clock MHRtab fd s MHRtab_length
      exact ⟨s2, h2⟩

theorem switchState_cases (x : Int) (hx : x = mState ∨ x = hState) :
    (switchState x = mState ∨ switchState x = hState) ∧ switchState x ≠ x ∧
      switchState (switchState x) = x := by
  rcases hx with h | h <;> rw [h] <;> decide

/-- C13: one pass through the loop body, from locals whose `state` is
`mState` or `hState`: when `hasMHR` finds a rendezvous in the frame the state
is switched twice and ends equal to the state at the start; when it finds none
the state is switched once and ends opposite to the state at the start; in
both cases the state at the end is again `mState` or `hState`. -/
theorem double_flip (t : List ℚ) (fd : ℚ) (s : Sim) (ht : t.length = 11)
    (hs : s.state = mState ∨ s.state = hState) :
    ∃ (r : Int) (s1 : Sim), hasMHR t s.scEnterTm s.scLeaveTm = Run.ok r ∧
      body t fd s = Run.ok s1 ∧
      (s1.state = mState ∨ s1.state = hState) ∧
      (0 ≤ r → s1.state = switchState (switchState s.state) ∧ s1.state = s.state) ∧
      (r < 0 → s1.state = switchState s.state ∧ s1.state ≠ s.state) := by
  obtain ⟨h1, h2, h3⟩ := switchState_cases s.state hs
  obtain ⟨r, hr, hcase⟩ := hasMHR_spec t s.scEnterTm s.scLeaveTm ht
  rcases hcase with ⟨hm1, _⟩ | ⟨i, hi, hri, _, _⟩
  · rw [hm1] at hr
    have hb : body t fd s = Run.ok (advance fd (wholeFrame fd { s with mhrndx := -1 })) := by
      simp only [body, account_none t fd s hr, bind_ok]
    have hst : (advance fd (wholeFrame fd { s with mhrndx := -1 })).state
        = switchState s.state := by
      unfold wholeFrame advance
      split_ifs <;> rfl
    refine ⟨-1, _, hr, hb, ?_, ?_, ?_⟩
    · rw [hst]; exact h1
    · intro h0
      omega
    · intro _
      rw [hst]
      exact ⟨rfl, h2⟩
  · rw [hri] at hr
    have hb : body t fd s =
        Run.ok (advance fd (splitFrame (t.getD i 0) fd { s with mhrndx := (i : Int) })) := by
      simp only [body, account_some t fd s i (by omega) hr, bind_ok]
    have hst : (advance fd (splitFrame (t.getD i 0) fd { s with mhrndx := (i : Int) })).state
        = switchState (switchState s.state) := by
      unfold splitFrame advance
      simp only
      split_ifs <;> rfl
    refine ⟨(i : Int), _, hr, hb, ?_, ?_, ?_⟩
    · rw [hst, h3]; exact hs
    · intro _
      rw [hst]
      exact ⟨rfl, h3⟩
    · intro hneg
      omega

theorem double_flip_witness :
    MHRtab.length = 11 ∧ ((initSim stepSize).state = mState ∨ (initSim stepSize).state = hState) ∧
    ∃ (r : Int) (s1 : Sim),
      hasMHR MHRtab (initSim stepSize).scEnterTm (initSim stepSize).scLeaveTm = Run.ok r ∧
      body MHRtab stepSize (initSim stepSize) = Run.ok s1 ∧
      (s1.state = mState ∨ s1.state = hState) ∧
      (0 ≤ r → s1.state = switchState (switchState (initSim stepSize).state) ∧
        s1.state = (initSim stepSize).state) ∧
      (r < 0 → s1.state = switchState (initSim stepSize).state ∧
        s1.state ≠ (initSim stepSize).state) :=
  ⟨rfl, Or.inl rfl, double_flip MHRtab stepSize (initSim stepSize) rfl (Or.inl rfl)⟩

/-- C14: when the frame has length `fulldelta` and `hasMHR` returns an index
`r ≥ 0`, the two pieces `partialdelta = MHR[r] - scEnterTm` and
`remainingdelta = fulldelta - partialdelta` are strictly positive, strictly
below `fulldelta`, and add up to `fulldelta`; `partialdelta` goes to the
accumulator of the current state, `remainingdelta` to the other one, and both
counters go up by one. -/
theorem split_at_crossing (t : List ℚ) (fd : ℚ) (s : Sim) (r : Int) (ht : t.length = 11)
    (hw : s.scLeaveTm = s.scEnterTm + fd)
    (hr : hasMHR t s.scEnterTm s.scLeaveTm = Run.ok r) (h0 : 0 ≤ r) :
    ∃ (x : ℚ) (s1 : Sim), readAt t r = Run.ok x ∧ account t fd s = Run.ok s1 ∧
      s1.partialdelta = x - s.scEnterTm ∧ s1.remainingdelta = fd - s1.partialdelta ∧
      0 < s1.partialdelta ∧ s1.partialdelta < fd ∧
      0 < s1.remainingdelta ∧ s1.remainingdelta < fd ∧
      s1.partialdelta + s1.remainingdelta = fd ∧
      (s.state = mState → s1.minutetm = s.minutetm + s1.partialdelta ∧
        s1.hourtm = s.hourtm + s1.remainingdelta) ∧
      (s.state ≠ mState → s1.hourtm = s.hourtm + s1.partialdelta ∧
        s1.minutetm = s.minutetm + s1.remainingdelta) ∧
      s1.minuteN = s.minuteN + 1 ∧ s1.hourN = s.hourN + 1 := by
  obtain ⟨r1, hr1, hcase⟩ := hasMHR_spec t s.scEnterTm s.scLeaveTm ht
  rw [hr] at hr1
  have hrr : r = r1 := Run.ok.inj hr1
  rcases hcase with ⟨hm1, _⟩ | ⟨i, hi, hri, hin, _⟩
  · omega
  · have hri2 : r = (i : Int) := hrr.trans hri
    rw [hri2] at hr
    rw [hri2]
    have hacc := account_some t fd s i (by omega) hr
    obtain ⟨hlo, hhi⟩ := hin
    rw [hw] at hhi
    refine ⟨t.getD i 0, _, readAt_ok t i (by omega), hacc, ?_⟩
    unfold splitFrame
    simp only
    by_cases hst : s.state = mState
    · simp only [hst, if_true, true_implies, ne_eq, not_true_eq_false, false_implies,
        and_true, true_and]
      refine ⟨by linarith, by linarith, by linarith, by linarith, by ring⟩
    · simp only [hst, if_false, false_implies, ne_eq, not_false_eq_true, true_implies,
        and_true, true_and]
      refine ⟨by linarith, by linarith, by linarith, by linarith, by ring⟩

theorem split_at_crossing_witness :
    MHRtab.length = 11 ∧ crossingSim.scLeaveTm = crossingSim.scEnterTm + stepSize ∧
    hasMHR MHRtab crossingSim.scEnterTm crossingSim.scLeaveTm = Run.ok 0 ∧ (0 : Int) ≤ 0 ∧
    ∃ (x : ℚ) (s1 : Sim), readAt MHRtab 0 = Run.ok x ∧
      account MHRtab stepSize crossingSim = Run.ok s1 ∧
      s1.partialdelta = x - crossingSim.scEnterTm ∧
      s1.remainingdelta = stepSize - s1.partialdelta ∧
      0 < s1.partialdelta ∧ s1.partialdelta < stepSize ∧
      0 < s1.remainingdelta ∧ s1.remainingdelta < stepSize ∧
      s1.partialdelta + s1.remainingdelta = stepSize ∧
      (crossingSim.state = mState → s1.minutetm = crossingSim.minutetm + s1.partialdelta ∧
        s1.hourtm = crossingSim.hourtm + s1.remainingdelta) ∧
      (crossingSim.state ≠ mState → s1.hourtm = crossingSim.hourtm + s1.partialdelta ∧
        s1.minutetm = crossingSim.minutetm + s1.remainingdelta) ∧
      s1.minuteN = crossingSim.minuteN + 1 ∧ s1.hourN = crossingSim.hourN + 1 :=
  ⟨rfl, by decide!, by decide!, le_refl 0,
    split_at_crossing MHRtab stepSize crossingSim 0 rfl (by decide!) (by decide!) (le_refl 0)⟩

/-! ## The lines printed by `initMHR` -/

/-- The conversion to `int` of a non-negative double is its floor. -/
theorem toInt_eq_floor (x : ℚ) (hx : 0 ≤ x) : toInt x = ⌊x⌋ := by
  have hnum : 0 ≤ x.num := Rat.num_nonneg.mpr hx
  have hden : (0 : Int) ≤ (x.den : Int) := Int.natCast_nonneg _
  rw [toInt, Int.tdiv_eq_ediv hnum hden, ← Rat.floor_def]

/-- The line printed for a non-negative entry: hours, minutes and seconds
are the floors the text describes, they add up to the entry, and minutes and
seconds stay below sixty. -/
theorem showEntry_spec (t : List ℚ) (n : Nat) (hn : n < t.length) (hx : 0 ≤ t.getD n 0) :
    ∃ l : HMS, showEntry t (n : Int) = Run.ok l ∧
      l.hrs = ⌊t.getD n 0 / 3600⌋ ∧
      l.mins = ⌊(t.getD n 0 - 3600 * (l.hrs : ℚ)) / 60⌋ ∧
      l.secs = t.getD n 0 - 3600 * (l.hrs : ℚ) - 60 * (l.mins : ℚ) ∧
      3600 * (l.hrs : ℚ) + 60 * (l.mins : ℚ) + l.secs = t.getD n 0 ∧
      0 ≤ l.mins ∧ l.mins ≤ 59 ∧ 0 ≤ l.secs ∧ l.secs < 60 := by
  have hx1 : (0 : ℚ) ≤ t.getD n 0 / 3600 := by positivity
  have hfl1 : ((⌊t.getD n 0 / 3600⌋ : Int) : ℚ) ≤ t.getD n 0 / 3600 := Int.floor_le _
  have hfl2 : t.getD n 0 / 3600 < ((⌊t.getD n 0 / 3600⌋ : Int) : ℚ) + 1 :=
    Int.lt_floor_add_one _
  have hy0 : (0 : ℚ) ≤ t.getD n 0 - ((⌊t.getD n 0 / 3600⌋ * 3600 : Int) : ℚ) := by
    push_cast
    linarith
  have hy1 : t.getD n 0 - ((⌊t.getD n 0 / 3600⌋ * 3600 : Int) : ℚ) < 3600 := by
    push_cast
    linarith
  have hm0 : (0 : ℚ) ≤ (t.getD n 0 - ((⌊t.getD n 0 / 3600⌋ * 3600 : Int) : ℚ)) / 60 := by
    positivity
  have hm1 : ((⌊(t.getD n 0 - ((⌊t.getD n 0 / 3600⌋ * 3600 : Int) : ℚ)) / 60⌋ : Int) : ℚ)
      ≤ (t.getD n 0 - ((⌊t.getD n 0 / 3600⌋ * 3600 : Int) : ℚ)) / 60 := Int.floor_le _
  have hm2 : (t.getD n 0 - ((⌊t.getD n 0 / 3600⌋ * 3600 : Int) : ℚ)) / 60
      < ((⌊(t.getD n 0 - ((⌊t.getD n 0 / 3600⌋ * 3600 : Int) : ℚ)) / 60⌋ : Int) : ℚ) + 1 :=
    Int.lt_floor_add_one _
  have hmlt : ⌊(t.getD n 0 - ((⌊t.getD n 0 / 3600⌋ * 3600 : Int) : ℚ)) / 60⌋ < 60 := by
    rw [Int.floor_lt]
    push_cast
    push_cast at hy1
    linarith
  have hcast : ((⌊t.getD n 0 / 3600⌋ * 3600 : Int) : ℚ)
      = 3600 * ((⌊t.getD n 0 / 3600⌋ : Int) : ℚ) := by
    push_cast
    ring
  refine ⟨{ hrs := ⌊t.getD n 0 / 3600⌋,
            mins := ⌊(t.getD n 0 - ((⌊t.getD n 0 / 3600⌋ * 3600 : Int) : ℚ)) / 60⌋,
            secs := t.getD n 0 - ((⌊t.getD n 0 / 3600⌋ * 3600 : Int) : ℚ) -
              ((⌊(t.getD n 0 - ((⌊t.getD n 0 / 3600⌋ * 3600 : Int) : ℚ)) / 60⌋ * 60 : Int) : ℚ) },
    ?_, rfl, ?_, ?_, ?_, ?_, ?_, ?_, ?_⟩
  · simp only [showEntry, readAt_ok t n hn, bind_ok, fdiv_ok _ 3600 (by norm_num),
      fdiv_ok _ 60 (by norm_num), toInt_eq_floor _ hx1, toInt_eq_floor _ hm0]
  · simp only
    rw [hcast]
  · simp only
    rw [hcast]
    push_cast
    ring
  · simp only
    push_cast
    ring
  · exact Int.floor_nonneg.mpr hm0
  · simp only
    omega
  · simp only
    push_cast
    push_cast at hm1
    linarith
  · simp only
    push_cast
    push_cast at hm2
    linarith

/-- Each printed line is what `showEntry` computes for the entry of that index. -/
theorem showEntry_line (n : Nat) (hn : n ≤ 10) :
    ∃ l : HMS, MHRlines[n]? = some l ∧ showEntry MHRtab (n : Int) = Run.ok l := by
  interval_cases n <;> exact ⟨_, rfl, by decide!⟩

/-- C15: for every entry `x = MHR[n]` of the table the line printed by
`initMHR` has `hrs = floor(x/3600)`, `mins = floor((x - 3600*hrs)/60)` and
`secs = x - 3600*hrs - 60*mins`; these satisfy
`3600*hrs + 60*mins + secs = x`, `0 ≤ mins ≤ 59` and `0 ≤ secs < 60`. -/
theorem display_round_trip :
    ∃ t ls, initMHR = Run.ok (t, ls) ∧ ls.length = 11 ∧
      ∀ n : Nat, n ≤ 10 → ∃ (x : ℚ) (l : HMS),
        t[n]? = some x ∧ ls[n]? = some l ∧ showEntry t (n : Int) = Run.ok l ∧
        l.hrs = ⌊x / 3600⌋ ∧ l.mins = ⌊(x - 3600 * (l.hrs : ℚ)) / 60⌋ ∧
        l.secs = x - 3600 * (l.hrs : ℚ) - 60 * (l.mins : ℚ) ∧
        3600 * (l.hrs : ℚ) + 60 * (l.mins : ℚ) + l.secs = x ∧
        0 ≤ l.mins ∧ l.mins ≤ 59 ∧ 0 ≤ l.secs ∧ l.secs < 60 := by
  refine ⟨MHRtab, MHRlines, initMHR_eq, rfl, ?_⟩
  intro n hn
  have hl : n < MHRtab.length := by rw [MHRtab_length]; omega
  have hx : 0 ≤ MHRtab.getD n 0 := by
    rw [MHRtab_getD n hn]
    positivity
  obtain ⟨l, hl1, hl2⟩ := showEntry_line n hn
  obtain ⟨l1, hs1, hprops⟩ := showEntry_spec MHRtab n hl hx
  rw [hl2] at hs1
  have e : l = l1 := Run.ok.inj hs1
  rw [← e] at hprops
  refine ⟨MHRtab.getD n 0, l, ?_, hl1, hl2, hprops⟩
  rw [List.getD_eq_getElem?_getD, List.getElem?_eq_getElem hl]
  rfl

/-! ## Frames, rendezvous and the state along the run -/

theorem bind_ok_right {α : Type} (x : Run α) : (x >>= Run.ok) = x := by
  cases x <;> rfl

/-- Running `k + 1` passes is running `k` passes and then one more. -/
theorem iter_succ_last (t : List ℚ) (fd : ℚ) :
    ∀ (k : Nat) (s : Sim), iter t fd (k + 1) s = (iter t fd k s >>= body t fd) := by
  intro k
  induction k with
  | zero =>
    intro s
    simp only [iter, bind_ok]
    exact bind_ok_right _
  | succ k ih =>
    intro s
    have e1 : iter t fd (k + 1 + 1) s = (body t fd s >>= fun s1 => iter t fd (k + 1) s1) := rfl
    have e2 : iter t fd (k + 1) s = (body t fd s >>= fun s1 => iter t fd k s1) := rfl
    rw [e1, e2]
    cases hb : body t fd s with
    | fault e => rfl
    | ok s1 =>
      simp only [bind_ok]
      exact ih s1

/-- After `k` passes of the run the frame is `(k * fulldelta, k * fulldelta + fulldelta)`. -/
theorem iter_frame (k : Nat) :
    ∃ sk, iter MHRtab stepSize k (initSim stepSize) = Run.ok sk ∧
      sk.scEnterTm = (k : ℚ) * stepSize ∧ sk.scLeaveTm = (k : ℚ) * stepSize + stepSize := by
  obtain ⟨sk, hk, _, h2, h3⟩ :=
    iter_LoopInv MHRtab stepSize MHRtab_length k (initSim stepSize) (initSim_LoopInv stepSize)
  obtain ⟨sk1, hk1, he, _⟩ := iter_guard k
  rw [hk] at hk1
  have e : sk = sk1 := Run.ok.inj hk1
  rw [← e] at he
  exact ⟨sk, hk, by rw [h2, he], by rw [h3, he]⟩

/-- A point lies strictly inside at most one of the frames `(k*d, (k+1)*d)`. -/
theorem frame_index_unique (x d : ℚ) (hd : 0 < d) (k j : Nat)
    (h1 : (k : ℚ) * d < x) (h2 : x < ((k : ℚ) + 1) * d)
    (h3 : (j : ℚ) * d < x) (h4 : x < ((j : ℚ) + 1) * d) : k = j := by
  have a1 : (k : ℚ) < (j : ℚ) + 1 := lt_of_mul_lt_mul_right (lt_trans h1 h4) (le_of_lt hd)
  have a2 : (j : ℚ) < (k : ℚ) + 1 := lt_of_mul_lt_mul_right (lt_trans h3 h2) (le_of_lt hd)
  have b1 : k < j + 1 := by exact_mod_cast a1
  have b2 : j < k + 1 := by exact_mod_cast a2
  omega

/-- In a frame of one step `hasMHR` returns the index `i < 10` exactly when
entry `i` is inside the frame. -/
theorem hasMHR_eq_iff (a : ℚ) (i : Nat) (hi : i < 10) :
    hasMHR MHRtab a (a + stepSize) = Run.ok (i : Int) ↔ inFrame MHRtab a (a + stepSize) i := by
  obtain ⟨r, hr, hcase⟩ := hasMHR_spec MHRtab a (a + stepSize) MHRtab_length
  constructor
  · intro h
    rw [h] at hr
    have hrr : (i : Int) = r := Run.ok.inj hr
    rcases hcase with ⟨hm1, _⟩ | ⟨m, _, hrm, hin, _⟩
    · omega
    · have : i = m := by omega
      rw [this]
      exact hin
  · intro h
    rcases hcase with ⟨_, hnone⟩ | ⟨m, hm, hrm, hin, _⟩
    · exact absurd h (hnone i hi)
    · have : m = i := frame_entry_unique a m i (by omega) (by omega) hin h
      rw [hr, hrm, this]

/-- The state after one pass, in terms of what `hasMHR` returned. -/
theorem body_state (t : List ℚ) (fd : ℚ) (s : Sim) (ht : t.length = 11) :
    ∃ (r : Int) (s1 : Sim), hasMHR t s.scEnterTm s.scLeaveTm = Run.ok r ∧
      body t fd s = Run.ok s1 ∧
      s1.state = (if r < 0 then switchState s.state else switchState (switchState s.state)) := by
  obtain ⟨r, hr, hcase⟩ := hasMHR_spec t s.scEnterTm s.scLeaveTm ht
  rcases hcase with ⟨hm1, _⟩ | ⟨i, hi, hri, _, _⟩
  · rw [hm1] at hr
    have hb : body t fd s = Run.ok (advance fd (wholeFrame fd { s with mhrndx := -1 })) := by
      simp only [body, account_none t fd s hr, bind_ok]
    refine ⟨-1, _, hr, hb, ?_⟩
    rw [if_pos (by decide : (-1 : Int) < 0)]
    unfold wholeFrame advance
    split_ifs <;> rfl
  · rw [hri] at hr
    have hb : body t fd s =
        Run.ok (advance fd (splitFrame (t.getD i 0) fd { s with mhrndx := (i : Int) })) := by
      simp only [body, account_some t fd s i (by omega) hr, bind_ok]
    have hneg : ¬ ((i : Int) < 0) := by omega
    refine ⟨(i : Int), _, hr, hb, ?_⟩
    rw [if_neg hneg]
    unfold splitFrame advance
    simp only
    split_ifs <;> rfl

theorem crossCount_succ (t : List ℚ) (fd : ℚ) (k : Nat) (s s1 : Sim) (r : Int) (c : Nat)
    (hr : hasMHR t s.scEnterTm s.scLeaveTm = Run.ok r) (hb : body t fd s = Run.ok s1)
    (hc : crossCount t fd k s1 = Run.ok c) :
    crossCount t fd (k + 1) s = Run.ok (if r < 0 then c else c + 1) := by
  simp only [crossCount, hr, hb, hc, bind_ok]

/-- Along `k` passes, `minuteN + hourN` grows by `k` plus the number of
passes that took the branch with a rendezvous. -/
theorem iter_counts (t : List ℚ) (fd : ℚ) (ht : t.length = 11) :
    ∀ (k : Nat) (s : Sim), ∃ (sk : Sim) (c : Nat), iter t fd k s = Run.ok sk ∧
      crossCount t fd k s = Run.ok c ∧
      sk.minuteN + sk.hourN = s.minuteN + s.hourN + (k : Int) + (c : Int) := by
  intro k
  induction k with
  | zero =>
    intro s
    exact ⟨s, 0, rfl, rfl, by simp⟩
  | succ k ih =>
    intro s
    obtain ⟨r, s1, hr, hb, hcnt⟩ := body_counts t fd s ht
    obtain ⟨sk, c, hk, hc, hsum⟩ := ih s1
    refine ⟨sk, if r < 0 then c else c + 1, ?_, crossCount_succ t fd k s s1 r c hr hb hc, ?_⟩
    · simp only [iter, hb, bind_ok, hk]
    · rw [hsum, hcnt]
      split_ifs <;> push_cast <;> ring

theorem state_two_valued (x y : Int) (hx : x = mState ∨ x = hState)
    (hy : y = mState ∨ y = hState) : (x = y ↔ x ≠ switchState y) := by
  rcases hx with h | h <;> rcases hy with h1 | h1 <;> rw [h, h1] <;> decide

/-- Along `k` passes started in `mState` or `hState`, the state comes back to
the one it started from exactly when `k` plus the number of passes with a
rendezvous is even. -/
theorem iter_parity (t : List ℚ) (fd : ℚ) (ht : t.length = 11) :
    ∀ (k : Nat) (s : Sim), (s.state = mState ∨ s.state = hState) →
      ∃ (sk : Sim) (c : Nat), iter t fd k s = Run.ok sk ∧
        crossCount t fd k s = Run.ok c ∧
        (sk.state = mState ∨ sk.state = hState) ∧
        (sk.state = s.state ↔ Even (k + c)) := by
  intro k
  induction k with
  | zero =>
    intro s hs
    exact ⟨s, 0, rfl, rfl, hs, by simp⟩
  | succ k ih =>
    intro s hs
    obtain ⟨hsw1, hsw2, hsw3⟩ := switchState_cases s.state hs
    obtain ⟨r, s1, hr, hb, hst⟩ := body_state t fd s ht
    by_cases hneg : r < 0
    · rw [if_pos hneg] at hst
      obtain ⟨sk, c, hk, hc, hsk, hpar⟩ := ih s1 (by rw [hst]; exact hsw1)
      have hcc := crossCount_succ t fd k s s1 r c hr hb hc
      rw [if_pos hneg] at hcc
      refine ⟨sk, c, by simp only [iter, hb, bind_ok, hk], hcc, hsk, ?_⟩
      rw [state_two_valued sk.state s.state hsk hs, ← hst, Ne, hpar]
      rw [Nat.even_iff, Nat.even_iff]
      omega
    · rw [if_neg hneg] at hst
      rw [hsw3] at hst
      obtain ⟨sk, c, hk, hc, hsk, hpar⟩ := ih s1 (by rw [hst]; exact hs)
      have hcc := crossCount_succ t fd k s s1 r c hr hb hc
      rw [if_neg hneg] at hcc
      refine ⟨sk, c + 1, by simp only [iter, hb, bind_ok, hk], hcc, hsk, ?_⟩
      rw [← hst, hpar]
      rw [Nat.even_iff, Nat.even_iff]
      omega

/-- Entry `i < 10` of the table lies in the frame number `(i+1)*1427/11`. -/
theorem entry_in_frame (i : Nat) (hi : i < 10) :
    (i + 1) * 1427 / 11 < 1427 ∧
    inFrame MHRtab ((((i + 1) * 1427 / 11 : Nat) : ℚ) * stepSize)
      (((((i + 1) * 1427 / 11 : Nat) : ℚ) + 1) * stepSize) i := by
  unfold inFrame
  rw [MHRtab_getD i (by omega), stepSize]
  interval_cases i <;> norm_num

/-- No entry among `MHR[0..9]` lies in the last frame of the run. -/
theorem last_frame_empty (i : Nat) (hi : i < 10) :
    ¬ inFrame MHRtab ((1426 : ℚ) * stepSize) ((1426 : ℚ) * stepSize + stepSize) i := by
  unfold inFrame
  rw [MHRtab_getD i (by omega), stepSize]
  intro h
  have h1 : (i : ℚ) + 1 ≤ 10 := by exact_mod_cast hi
  have h2 := h.1
  linarith

/-! ## Claims about the run as a whole -/

/-- C12: the last pass of the loop (the 1427th) starts with the guard true
and the state `mState`, and `hasMHR` finds no rendezvous in its frame; so the
whole frame is added to `minutetm` and `hourtm` is left alone, and the locals
it produces are those at loop exit, on which the correction after the loop
changes `minutetm` only.  Whatever the locals, the correction subtracts
`elapsedtm - 43200` from `minutetm` and leaves `hourtm` as it is. -/
theorem correction_on_minutetm :
    ∃ t ls, initMHR = Run.ok (t, ls) ∧
      ∃ s0 s1 : Sim, iter t stepSize 1426 (initSim stepSize) = Run.ok s0 ∧
        loopGuard s0 = true ∧ s0.state = mState ∧
        hasMHR t s0.scEnterTm s0.scLeaveTm = Run.ok (-1) ∧
        body t stepSize s0 = Run.ok s1 ∧
        s1.minutetm = s0.minutetm + stepSize ∧ s1.hourtm = s0.hourtm ∧
        loopGuard s1 = false ∧
        (∀ fuel : Nat, 1427 < fuel → mainLoop fuel = Run.ok s1) ∧
        (finish s1).minutetm = s1.minutetm - (s1.elapsedtm - 43200) ∧
        (finish s1).hourtm = s1.hourtm ∧
        (∀ s : Sim, (finish s).minutetm = s.minutetm - (s.elapsedtm - 43200) ∧
          (finish s).hourtm = s.hourtm) := by
  obtain ⟨s0, h0, hen, hlv⟩ := iter_frame 1426
  obtain ⟨sg, hg0, _, hguard⟩ := iter_guard 1426
  rw [h0] at hg0
  have esg : s0 = sg := Run.ok.inj hg0
  rw [← esg] at hguard
  have hlast : body MHRtab stepSize s0 = Run.ok exitSim := by
    have h := iter_succ_last MHRtab stepSize 1426 (initSim stepSize)
    rw [iter_eval, h0, bind_ok] at h
    exact h.symm
  obtain ⟨r, hr, hcase⟩ := hasMHR_spec MHRtab s0.scEnterTm s0.scLeaveTm MHRtab_length
  have hr1 : hasMHR MHRtab s0.scEnterTm s0.scLeaveTm = Run.ok (-1) := by
    rcases hcase with ⟨hm1, _⟩ | ⟨i, hi, _, hin, _⟩
    · rw [hm1] at hr
      exact hr
    · rw [hen, hlv] at hin
      have hcast : ((1426 : Nat) : ℚ) = (1426 : ℚ) := by norm_num
      rw [hcast] at hin
      exact absurd hin (last_frame_empty i hi)
  have hb : body MHRtab stepSize s0
      = Run.ok (advance stepSize (wholeFrame stepSize { s0 with mhrndx := -1 })) := by
    simp only [body, account_none MHRtab stepSize s0 hr1, bind_ok]
  rw [hlast] at hb
  have e : exitSim = advance stepSize (wholeFrame stepSize { s0 with mhrndx := -1 }) :=
    Run.ok.inj hb
  have hstate : s0.state = mState := by
    by_contra hne
    have h1 := congrArg Sim.state e
    unfold wholeFrame advance at h1
    simp only [hne, if_false, switchState] at h1
    exact absurd h1 (by decide)
  have hmin : exitSim.minutetm = s0.minutetm + stepSize := by
    have h1 := congrArg Sim.minutetm e
    unfold wholeFrame advance at h1
    simp only [hstate, if_true] at h1
    exact h1
  have hhour : exitSim.hourtm = s0.hourtm := by
    have h1 := congrArg Sim.hourtm e
    unfold wholeFrame advance at h1
    simp only [hstate, if_true] at h1
    exact h1
  refine ⟨MHRtab, MHRlines, initMHR_eq, s0, exitSim, h0, hguard.mpr (by decide), hstate,
    hr1, hlast, hmin, hhour, ?_, fun fuel hf => mainLoop_run fuel hf, rfl, rfl,
    fun s => ⟨rfl, rfl⟩⟩
  obtain ⟨sx, hx, _, hgx⟩ := iter_guard 1427
  rw [iter_eval] at hx
  rw [← Run.ok.inj hx] at hgx
  cases hg : loopGuard exitSim with
  | false => rfl
  | true => exact absurd (hgx.mp hg) (by decide)

/-- C17: no entry among `MHR[0..9]` falls on the boundary of a frame: for
`n` in `1..10` and any integer `k`, `n*43200/11 ≠ k*43200/1427`.  Each of
`MHR[0..9]` lies strictly inside exactly one of the 1427 frames
`(k*fulldelta, (k+1)*fulldelta)`, `k = 0..1426`; for each of them there is
exactly one pass of the loop in which `hasMHR` returns its index; and the
branch with a rendezvous is taken 10 times in the 1427 passes. -/
theorem crossings_once_per_entry :
    (∀ (n : Nat) (k : Int), 1 ≤ n → n ≤ 10 →
      (n : ℚ) * 43200 / 11 ≠ (k : ℚ) * 43200 / 1427) ∧
    ∃ t ls, initMHR = Run.ok (t, ls) ∧
      (∀ i : Nat, i < 10 → ∃! k : Nat, k < 1427 ∧
        inFrame t ((k : ℚ) * stepSize) (((k : ℚ) + 1) * stepSize) i) ∧
      (∀ i : Nat, i < 10 → ∃! k : Nat, k < 1427 ∧
        ∃ sk, iter t stepSize k (initSim stepSize) = Run.ok sk ∧
          hasMHR t sk.scEnterTm sk.scLeaveTm = Run.ok (i : Int)) ∧
      crossCount t stepSize 1427 (initSim stepSize) = Run.ok 10 := by
  have hpos : (0 : ℚ) < stepSize := by rw [stepSize]; norm_num
  have hfr : ∀ k : Nat, ((k : ℚ) + 1) * stepSize = (k : ℚ) * stepSize + stepSize := by
    intro k
    ring
  refine ⟨?_, MHRtab, MHRlines, initMHR_eq, ?_, ?_, ?_⟩
  · intro n k h1 h2 heq
    have h3 : (1427 : ℚ) * (n : ℚ) = 11 * (k : ℚ) := by
      field_simp at heq
      linarith
    have h4 : (1427 : Int) * (n : Int) = 11 * k := by exact_mod_cast h3
    omega
  · intro i hi
    obtain ⟨hk, hin⟩ := entry_in_frame i hi
    refine ⟨(i + 1) * 1427 / 11, ⟨hk, hin⟩, ?_⟩
    rintro j ⟨_, hj⟩
    exact frame_index_unique (MHRtab.getD i 0) stepSize hpos j _ hj.1 hj.2 hin.1 hin.2
  · intro i hi
    obtain ⟨hk, hin⟩ := entry_in_frame i hi
    refine ⟨(i + 1) * 1427 / 11, ⟨hk, ?_⟩, ?_⟩
    · obtain ⟨sk, h1, h2, h3⟩ := iter_frame ((i + 1) * 1427 / 11)
      refine ⟨sk, h1, ?_⟩
      rw [h2, h3, hasMHR_eq_iff _ i hi, ← hfr]
      exact hin
    · rintro j ⟨_, sj, hj1, hj2⟩
      obtain ⟨sj1, h1, h2, h3⟩ := iter_frame j
      rw [hj1] at h1
      rw [← Run.ok.inj h1] at h2 h3
      rw [h2, h3, hasMHR_eq_iff _ i hi, ← hfr] at hj2
      exact frame_index_unique (MHRtab.getD i 0) stepSize hpos j _ hj2.1 hj2.2 hin.1 hin.2
  · obtain ⟨sk, c, hk, hc, hsum⟩ :=
      iter_counts MHRtab stepSize MHRtab_length 1427 (initSim stepSize)
    rw [iter_eval] at hk
    rw [← Run.ok.inj hk] at hsum
    simp only [exitSim, initSim] at hsum
    have : c = 10 := by omega
    rw [hc, this]

/-- C18: the simulation ends with `minutetm = 43200 * 7849/15697` and
`hourtm = 43200 * 7848/15697`; the printed difference `S_m - S_h` is
`43200/15697 > 0`, the printed `P(minute) = 7849/15697` is above one half and
the printed `P(hour) = 7848/15697` is below one half. -/
theorem exact_outcome (fuel : Nat) (h : 1427 < fuel) :
    ∃ r : Report, main fuel = Run.ok r ∧
      r.minutetm = 43200 * 7849 / 15697 ∧ r.hourtm = 43200 * 7848 / 15697 ∧
      r.diff = r.minutetm - r.hourtm ∧ r.diff = 43200 / 15697 ∧ 0 < r.diff ∧
      r.pMinute = r.minutetm / 43200 ∧ r.pMinute = 7849 / 15697 ∧ 1 / 2 < r.pMinute ∧
      r.pHour = r.hourtm / 43200 ∧ r.pHour = 7848 / 15697 ∧ r.pHour < 1 / 2 := by
  refine ⟨finalReport, main_run fuel h, ?_⟩
  simp only [finalReport]
  norm_num

theorem exact_outcome_witness :
    1427 < 1428 ∧ ∃ r : Report, main 1428 = Run.ok r ∧
      r.minutetm = 43200 * 7849 / 15697 ∧ r.hourtm = 43200 * 7848 / 15697 ∧
      r.diff = r.minutetm - r.hourtm ∧ r.diff = 43200 / 15697 ∧ 0 < r.diff ∧
      r.pMinute = r.minutetm / 43200 ∧ r.pMinute = 7849 / 15697 ∧ 1 / 2 < r.pMinute ∧
      r.pHour = r.hourtm / 43200 ∧ r.pHour = 7848 / 15697 ∧ r.pHour < 1 / 2 :=
  ⟨by decide, exact_outcome 1428 (by decide)⟩

/-- C19: after `k` passes of the loop, `c` of which took the branch with a
rendezvous, the state is `mState` exactly when `k + c` is even; the loop
exits after 1427 passes, 10 of them with a rendezvous, in the state `hState`,
the switch after the loop makes it `mState`, and the report prints
"m-state". -/
theorem state_parity :
    ∃ t ls, initMHR = Run.ok (t, ls) ∧
      (∀ k : Nat, ∃ (sk : Sim) (c : Nat),
        iter t stepSize k (initSim stepSize) = Run.ok sk ∧
        crossCount t stepSize k (initSim stepSize) = Run.ok c ∧
        (sk.state = mState ↔ Even (k + c))) ∧
      (∀ fuel : Nat, 1427 < fuel → ∃ (s : Sim) (r : Report),
        iter t stepSize 1427 (initSim stepSize) = Run.ok s ∧
        crossCount t stepSize 1427 (initSim stepSize) = Run.ok 10 ∧
        mainLoop fuel = Run.ok s ∧ s.state = hState ∧
        mainSim fuel = Run.ok (finish s) ∧ (finish s).state = mState ∧
        main fuel = Run.ok r ∧ r.lastState = "m-state") := by
  refine ⟨MHRtab, MHRlines, initMHR_eq, ?_, ?_⟩
  · intro k
    obtain ⟨sk, c, hk, hc, _, hpar⟩ :=
      iter_parity MHRtab stepSize MHRtab_length k (initSim stepSize) (Or.inl rfl)
    exact ⟨sk, c, hk, hc, hpar⟩
  · intro fuel hf
    refine ⟨exitSim, finalReport, iter_eval, ?_, mainLoop_run fuel hf, rfl,
      mainSim_run fuel hf, rfl, main_run fuel hf, rfl⟩
    obtain ⟨sk, c, hk, hc, hsum⟩ :=
      iter_counts MHRtab stepSize MHRtab_length 1427 (initSim stepSize)
    rw [iter_eval] at hk
    rw [← Run.ok.inj hk] at hsum
    simp only [exitSim, initSim] at hsum
    have : c = 10 := by omega
    rw [hc, this]

end Sechprob
